import Mathlib

/-!
Shallow embedding of the senklot access-state engine (src/config.rs,
src/state.rs, src/main.rs, src/util.rs).

Conventions used throughout:
* Rust `String` / `&str` values are embedded as `List Char` (`Chars`).
* `chrono::DateTime<Local>` timestamps and `chrono::Duration` values are
  embedded as `Int` numbers of minutes; only ordering and addition of
  timestamps/durations are used by the engine, so any fixed unit works.
* `HashMap<String, V>` is embedded as an association list with
  insert-or-replace (`setA`, mirroring `MutDict::set` from util.rs) and
  first-match lookup (`lookupA`, mirroring `HashMap::get`).
* Filesystem and process effects are made explicit in an `Env` record:
  the current block-list document, success flags for the individual
  syscalls (`read_hosts`, hosts write, state save, command spawn) and a
  counter of block-list writes (the I/O trace the claims talk about).
* A Rust panic is embedded as `Option.none` (the event loop dies).
-/

namespace Senklot

abbrev Chars := List Char

/-- Character class of `addr_domain` tokens: nom `none_of("\t #")`
(state.rs / main.rs). -/
def isTokenChar (c : Char) : Bool :=
  !(c == '\t') && !(c == ' ') && !(c == '#')

/-- Character class of nom `space0`/`space1`: space and tab. -/
def isSpaceChar (c : Char) : Bool :=
  c == ' ' || c == '\t'

/-- Rust `str::split_inclusive('\n')`: pieces keep their trailing
newline and an empty final piece is not produced. -/
def splitInclusive : Chars → List Chars
  | [] => []
  | c :: rest =>
    if c = '\n' then ['\n'] :: splitInclusive rest
    else
      match splitInclusive rest with
      | [] => [[c]]
      | l :: ls => (c :: l) :: ls

/-- Drop one leading `'\r'` (working on a reversed line). -/
def stripCRRev : Chars → Chars
  | [] => []
  | c2 :: r2 => if c2 = '\r' then r2 else c2 :: r2

/-- Drop one leading `'\n'`, and when one was dropped also one then
leading `'\r'` (working on a reversed line). -/
def stripLineEndingRev : Chars → Chars
  | [] => []
  | c :: r => if c = '\n' then stripCRRev r else c :: r

/-- The per-piece post-processing of Rust `str::lines`: strip one
trailing `'\n'`, and when one was stripped also one trailing `'\r'`. -/
def stripLineEnding (l : Chars) : Chars :=
  (stripLineEndingRev l.reverse).reverse

/-- Rust `str::lines` as used by `Hosts::parse`. -/
def splitLines (s : Chars) : List Chars :=
  (splitInclusive s).map stripLineEnding

/-- Model of `Vec<String>::join("\n")` as used by `Hosts::export`. -/
def joinLines : List Chars → Chars
  | [] => []
  | [l] => l
  | l :: rest => l ++ '\n' :: joinLines rest

/-- Model of `HashMap::get` on the association-list representation. -/
def lookupA {β : Type} : List (Chars × β) → Chars → Option β
  | [], _ => none
  | p :: rest, k => if p.1 = k then some p.2 else lookupA rest k

/-- Model of `MutDict::set` (util.rs): insert-or-replace by key. -/
def setA {β : Type} : List (Chars × β) → Chars → β → List (Chars × β)
  | [], k, v => [(k, v)]
  | p :: rest, k, v => if p.1 = k then (k, v) :: rest else p :: setA rest k v

/-- Model of `OptionCond::and_if` (util.rs): `o.map(pred).unwrap_or(false)`. -/
def and_if {α : Type} (o : Option α) (p : α → Bool) : Bool :=
  (o.map p).getD false

/-- Model of `OptionCond::or_if` (util.rs): `o.map(pred).unwrap_or(true)`. -/
def or_if {α : Type} (o : Option α) (p : α → Bool) : Bool :=
  (o.map p).getD true

/-- Model of `OptionCond::and_if_flat` (util.rs): `o.and_then(pred).unwrap_or(false)`. -/
def and_if_flat {α : Type} (o : Option α) (p : α → Option Bool) : Bool :=
  (o.bind p).getD false

/-- Time of day at minute resolution (main.rs `struct Time`); the
derived Rust `Ord` is lexicographic on `(hours, minutes)`. -/
structure Time where
  hours : Nat
  minutes : Nat
deriving DecidableEq

/-- Derived lexicographic `<` of main.rs `Time`. -/
def Time.ltb (a b : Time) : Bool :=
  decide (a.hours < b.hours) ||
    (decide (a.hours = b.hours) && decide (a.minutes < b.minutes))

/-- Derived lexicographic `<=` of main.rs `Time`. -/
def Time.leb (a b : Time) : Bool :=
  Time.ltb a b || decide (a = b)

/-- config.rs / main.rs `StaticDuration`. -/
structure StaticDuration where
  begin : Time
  «end» : Time
deriving DecidableEq

/-- Model of `StaticDuration::contains` (config.rs lines 19-27, main.rs lines
49-60), translated branch by branch. -/
def StaticDuration.contains (sd : StaticDuration) (t : Time) : Bool :=
  if Time.ltb sd.begin sd.«end» then
    Time.leb sd.begin t && Time.ltb t sd.«end»
  else
    Time.leb sd.«end» t || Time.ltb t sd.begin

/-- Model of `u32::from_str` applied to a 2-character `take!(2)` slice
(`two_digits`): two decimal digits, or a `'+'` followed by one digit
(`u32::from_str` accepts a leading plus sign). -/
def two_digits (s : Chars) : Option (Nat × Chars) :=
  match s with
  | c1 :: c2 :: rest =>
    if c1.isDigit && c2.isDigit then
      some ((c1.toNat - '0'.toNat) * 10 + (c2.toNat - '0'.toNat), rest)
    else if c1 = '+' && c2.isDigit then
      some (c2.toNat - '0'.toNat, rest)
    else none
  | _ => none

/-- The `time` grammar rule (config.rs lines 101-112, main.rs lines
134-145): `two_digits ":" two_digits` with the source's bounds checks
`h > 23` and `m > 60` kept verbatim. -/
def time (s : Chars) : Option (Time × Chars) :=
  match two_digits s with
  | none => none
  | some (h, s1) =>
    match s1 with
    | ':' :: s2 =>
      match two_digits s2 with
      | none => none
      | some (m, s3) =>
        if h > 23 then none
        else if m > 60 then none
        else some (⟨h, m⟩, s3)
    | _ => none

/-- Model of `all_consuming(time)` as used by the `Deserialize` impl: the token
must be consumed entirely. -/
def time_all (s : Chars) : Option Time :=
  match time s with
  | some (t, []) => some t
  | _ => none

/-- Truncation toward zero (`f64::trunc`) on the rational model. -/
def trunc0 (q : ℚ) : Int :=
  if 0 ≤ q then ⌊q⌋ else -(⌊-q⌋)

/-- Digit-list to number (for the `float` rule's `f64::from_str`). -/
def digitsVal (l : List Char) : Nat :=
  l.foldl (fun a c => a * 10 + (c.toNat - '0'.toNat)) 0

/-- The `float` grammar rule `digit1 ("." digit0)?` with `f64::from_str`
modelled exactly over `ℚ`.  (The source parses into an `f64`; the
rational value is exact for the decimals appearing in the claims, such
as `1.5`, where binary rounding cannot change any truncation result.) -/
def float (s : Chars) : Option (ℚ × Chars) :=
  let ds := s.takeWhile Char.isDigit
  if ds = [] then none
  else
    let rest := s.dropWhile Char.isDigit
    match rest with
    | '.' :: rest2 =>
      let fs := rest2.takeWhile Char.isDigit
      some ((digitsVal ds : ℚ) + (digitsVal fs : ℚ) / ((10 : ℚ) ^ fs.length),
        rest2.dropWhile Char.isDigit)
    | _ => some ((digitsVal ds : ℚ), rest)

/-- Model of `mh_duration` (config.rs lines 126-133, main.rs lines 159-166),
result in minutes.  The hours branch is the source's
`Duration::hours(d.trunc()) + Duration::minutes((d.fract() / 60.).trunc())`
— note the division by 60, kept verbatim. -/
def mh_duration (s : Chars) : Option (Int × Chars) :=
  match float s with
  | none => none
  | some (d, s1) =>
    match s1 with
    | 'h' :: rest => some (60 * trunc0 d + trunc0 ((d - trunc0 d) / 60), rest)
    | 'm' :: rest => some (trunc0 d, rest)
    | _ => none

/-- state.rs / main.rs `enum Host`. -/
inductive Host where
  | Locked : Host
  | CommentedOut : Host
deriving DecidableEq

/-- Model of `addr_domain`: `many1(none_of("\t #"))`, returning the recognized
token and the rest. -/
def addr_domain (s : Chars) : Option (Chars × Chars) :=
  let tok := s.takeWhile isTokenChar
  if tok = [] then none else some (tok, s.dropWhile isTokenChar)

/-- Model of `locked_host`: `space0 addr_domain space1 addr_domain`, yielding the
second token as the domain. -/
def locked_host (s : Chars) : Option (Chars × Host) :=
  match addr_domain (s.dropWhile isSpaceChar) with
  | none => none
  | some (_, s1) =>
    match s1 with
    | c :: rest =>
      if isSpaceChar c then
        match addr_domain (rest.dropWhile isSpaceChar) with
        | none => none
        | some (d, _) => some (d, Host.Locked)
      else none
    | [] => none

/-- Model of `comment_out`: `space0 "#" locked_host`. -/
def comment_out (s : Chars) : Option (Chars × Host) :=
  match s.dropWhile isSpaceChar with
  | '#' :: rest =>
    match locked_host rest with
    | some (d, _) => some (d, Host.CommentedOut)
    | none => none
  | _ => none

/-- Model of `host`: `alt!(locked_host | comment_out)`. -/
def host (s : Chars) : Option (Chars × Host) :=
  match locked_host s with
  | some r => some r
  | none => comment_out s

/-- Model of `Hosts::host_line` (state.rs lines 267-273, main.rs lines 401-407):
`"127.0.0.1 {domain}"` when locking, `"# 127.0.0.1 {domain}"` when
unlocking. -/
def host_line (domain : Chars) (is_locked : Bool) : Chars :=
  if is_locked then "127.0.0.1 ".data ++ domain
  else "# 127.0.0.1 ".data ++ domain

/-- The loop body of `Hosts::parse`: fold the numbered lines into the
domain index, later lines overwriting earlier ones (`HashMap::insert`). -/
def parseIdxFrom (n : Nat) (ls : List Chars) (m : List (Chars × Nat × Host)) :
    List (Chars × Nat × Host) :=
  match ls with
  | [] => m
  | l :: rest =>
    parseIdxFrom (n + 1) rest
      (match host l with
       | some (d, h) => setA m d (n, h)
       | none => m)

/-- state.rs / main.rs `struct Hosts`. -/
structure Hosts where
  hosts_file : List Chars
  hosts : List (Chars × Nat × Host)
deriving DecidableEq

/-- Model of `Hosts::parse`. -/
def Hosts.parse (text : Chars) : Hosts :=
  { hosts_file := splitLines text
  , hosts := parseIdxFrom 0 (splitLines text) [] }

/-- Model of `Hosts::is_locked` on the index alone. -/
def is_lockedA (m : List (Chars × Nat × Host)) (d : Chars) : Bool :=
  match lookupA m d with
  | none => false
  | some (_, Host.CommentedOut) => false
  | some (_, Host.Locked) => true

/-- Model of `Hosts::is_locked`. -/
def Hosts.is_locked (hs : Hosts) (d : Chars) : Bool :=
  is_lockedA hs.hosts d

/-- Model of `Hosts::write_state`: rewrite the recorded line in place, or append
a new line when the domain has no recorded line.  (The `hosts` index is
not touched, exactly as in the source.) -/
def Hosts.write_state (hs : Hosts) (d : Chars) (b : Bool) : Hosts :=
  match lookupA hs.hosts d with
  | some (i, _) => { hs with hosts_file := hs.hosts_file.set i (host_line d b) }
  | none => { hs with hosts_file := hs.hosts_file ++ [host_line d b] }

/-- Model of `Hosts::export`. -/
def Hosts.exportText (hs : Hosts) : Chars :=
  joinLines hs.hosts_file

/-- config.rs `Restriction` (durations in minutes). -/
inductive Restriction where
  | Static : List StaticDuration → Restriction
  | Dynamic : (period : Int) → (cool_time : Int) → Restriction
deriving DecidableEq

/-- config.rs `Entry`. -/
structure Entry where
  domains : List Chars
  restriction : Restriction
deriving DecidableEq

/-- config.rs `Config` (the fields the engine reads; `interval` is
consumed only by the ticker). -/
structure Config where
  after_lock : Option Chars
  after_unlock : Option Chars
  entries : List (Chars × Entry)
deriving DecidableEq

/-- state.rs `struct State` (the persisted maps and the derived domain
index). -/
structure State where
  last_unlocked : List (Chars × Int)
  last_locked : List (Chars × Int)
  is_locked : List (Chars × Bool)
  domain_map : List (Chars × Chars)
deriving DecidableEq

/-- Explicit model of the effects `State::unlock`/`lock`/`commit`
perform: the on-disk block-list document, success flags for each kind of
syscall, and a counter of block-list writes. -/
structure Env where
  doc : Chars
  readOk : Bool
  writeOk : Bool
  saveOk : Bool
  spawnOk : Bool
  writes : Nat
deriving DecidableEq

/-- Errors surfaced by `commit` (all `anyhow` I/O errors). -/
inductive CErr where
  | ioError : CErr
deriving DecidableEq

/-- Errors surfaced by `unlock`/`lock`: the `"Not have been cool down
yet"` cooldown rejection (the spec's `CooldownActive`) and I/O errors. -/
inductive UErr where
  | cooldown : UErr
  | ioError : UErr
deriving DecidableEq

/-- Model of `State::domanin_is_locked` (the source's spelling). -/
def State.domanin_is_locked (st : State) (domain : Chars) : Bool :=
  and_if_flat (lookupA st.domain_map domain) (fun e => lookupA st.is_locked e)

/-- One iteration of `State::commit`'s diff loop. -/
def commitStep (st : State) (acc : Hosts × Bool) (p : Chars × Chars) : Hosts × Bool :=
  let lock_state := st.domanin_is_locked p.1
  if acc.1.is_locked p.1 = lock_state then acc
  else (acc.1.write_state p.1 lock_state, true)

/-- The pure core of `State::commit` (state.rs lines 143-168): parse the
document, diff every domain of the domain map, and report whether any
line changed. -/
def commitScan (st : State) (text : Chars) : Hosts × Bool :=
  st.domain_map.foldl (commitStep st) (Hosts.parse text, false)

/-- Composition of `commitScan` with `Hosts::export`: the document `commit`
would write, plus the changed flag. -/
def commitPure (st : State) (text : Chars) : Chars × Bool :=
  ((commitScan st text).1.exportText, (commitScan st text).2)

/-- Model of `State::commit` with its effects: read the document, diff, and only
when at least one line changed write the document back (then persist the
state blob).  Mirrors the early `return Ok(())` on an unchanged scan. -/
def commit (st : State) (env : Env) : Env × Option CErr :=
  if env.readOk = false then (env, some CErr.ioError)
  else if (commitScan st env.doc).2 = false then (env, none)
  else if env.writeOk = false then (env, some CErr.ioError)
  else
    let env1 : Env :=
      { env with doc := (commitScan st env.doc).1.exportText, writes := env.writes + 1 }
    if env.saveOk = false then (env1, some CErr.ioError) else (env1, none)

/-- Model of `State::unlock` (state.rs lines 78-110, main.rs lines 241-268):
no-op when already unlocked; cooldown rejection for dynamic entries;
otherwise flip `is_locked`, record `last_unlocked` for dynamic entries,
run `commit` (propagating its error after the in-memory mutation), and
finally spawn the `after_unlock` command. -/
def unlock (st : State) (name : Chars) (e : Entry) (after_unlock : Option Chars)
    (now : Int) (env : Env) : State × Env × Option UErr :=
  if and_if (lookupA st.is_locked name) (fun l => !l) then (st, env, none)
  else if (match e.restriction with
           | Restriction.Dynamic _ ct =>
             and_if (lookupA st.last_unlocked name) (fun lu => decide (now < lu + ct))
           | Restriction.Static _ => false) then
    (st, env, some UErr.cooldown)
  else
    let st1 : State := { st with is_locked := setA st.is_locked name false }
    let st2 : State :=
      match e.restriction with
      | Restriction.Dynamic _ _ =>
        { st1 with last_unlocked := setA st1.last_unlocked name now }
      | Restriction.Static _ => st1
    match commit st2 env with
    | (env1, some _) => (st2, env1, some UErr.ioError)
    | (env1, none) =>
      match after_unlock with
      | some _ =>
        if env1.spawnOk then (st2, env1, none) else (st2, env1, some UErr.ioError)
      | none => (st2, env1, none)

/-- Model of `State::lock` (state.rs lines 112-130): the symmetric operation. -/
def lock (st : State) (name : Chars) (e : Entry) (after_lock : Option Chars)
    (now : Int) (env : Env) : State × Env × Option UErr :=
  if and_if (lookupA st.is_locked name) (fun l => l) then (st, env, none)
  else
    let st1 : State := { st with is_locked := setA st.is_locked name true }
    let st2 : State :=
      match e.restriction with
      | Restriction.Dynamic _ _ =>
        { st1 with last_locked := setA st1.last_locked name now }
      | Restriction.Static _ => st1
    match commit st2 env with
    | (env1, some _) => (st2, env1, some UErr.ioError)
    | (env1, none) =>
      match after_lock with
      | some _ =>
        if env1.spawnOk then (st2, env1, none) else (st2, env1, some UErr.ioError)
      | none => (st2, env1, none)

/-- The evaluation instant of `State::update`: the timestamp used for
duration arithmetic and the time of day used by `StaticDuration::contains`. -/
structure Now where
  ts : Int
  tod : Time
deriving DecidableEq

/-- One iteration of `State::update`'s entry loop: compute the desired
state, call `unlock`/`lock`, and push any error onto the error list. -/
def updateStep (cfg : Config) (now : Now) (acc : State × Env × List UErr)
    (p : Chars × Entry) : State × Env × List UErr :=
  let r :=
    match p.2.restriction with
    | Restriction.Static u =>
      if u.any (fun d => d.contains now.tod) then
        unlock acc.1 p.1 p.2 cfg.after_unlock now.ts acc.2.1
      else
        lock acc.1 p.1 p.2 cfg.after_lock now.ts acc.2.1
    | Restriction.Dynamic period _ =>
      if or_if (lookupA acc.1.last_unlocked p.1) (fun lu => decide (now.ts < lu + period)) then
        unlock acc.1 p.1 p.2 cfg.after_unlock now.ts acc.2.1
      else
        lock acc.1 p.1 p.2 cfg.after_lock now.ts acc.2.1
  match r.2.2 with
  | some er => (r.1, r.2.1, acc.2.2 ++ [er])
  | none => (r.1, r.2.1, acc.2.2)

/-- Model of `State::update` (state.rs lines 170-214, main.rs lines 319-363):
attempt every entry, collecting per-entry failures; the returned list is
empty exactly when the source returns `Ok(())`. -/
def update (st : State) (env : Env) (cfg : Config) (now : Now) : State × Env × List UErr :=
  cfg.entries.foldl (updateStep cfg now) (st, env, [])

/-- The unlock-request arm of `main_loop` (main.rs lines 606-612):
`state.unlock(&name, &config.entries[&name], &config.after_unlock)`.
The `HashMap` indexing `config.entries[&name]` panics when `name` is not
an entry; the panic is modelled as `none`. -/
def main_loop_unlock (cfg : Config) (st : State) (env : Env) (name : Chars)
    (now : Int) : Option (State × Env) :=
  match lookupA cfg.entries name with
  | none => none
  | some e =>
    let r := unlock st name e cfg.after_unlock now env
    some (r.1, r.2.1)

/-- Well-formed domain token: nonempty, all characters in the
`addr_domain` class, and no line-break characters (so that the token
survives a round trip through `join("\n")` / `lines()`). -/
def validDomain (d : Chars) : Prop :=
  d ≠ [] ∧ ∀ c ∈ d, isTokenChar c = true ∧ c ≠ '\n' ∧ c ≠ '\r'

instance (d : Chars) : Decidable (validDomain d) := by
  unfold validDomain; infer_instance

/-- All syscalls succeed. -/
def Env.allOk (env : Env) : Prop :=
  env.readOk = true ∧ env.writeOk = true ∧ env.saveOk = true ∧ env.spawnOk = true

instance (env : Env) : Decidable env.allOk := by
  unfold Env.allOk; infer_instance

/-! Specification-side helper functions used to reason about
`Hosts.parse`, `Hosts.write_state` and `commitScan`. -/

/-- The `Host` marker a freshly written line carries. -/
def toHost (b : Bool) : Host :=
  if b then Host.Locked else Host.CommentedOut

/-- The lock status encoded by an optional parse result (the value
`Hosts::is_locked` computes from a lookup result). -/
def hostBool : Option Host → Bool
  | none => false
  | some Host.CommentedOut => false
  | some Host.Locked => true

/-- Search a line list from the back for the last line recognizing the
domain `d`, returning its (front-based) index and marker. -/
def revFindD (ls : List Chars) (d : Chars) : Option (Nat × Host) :=
  match ls with
  | [] => none
  | l :: rest =>
    match revFindD rest d with
    | some (i, h) => some (i + 1, h)
    | none =>
      match host l with
      | some (d2, h) => if d2 = d then some (0, h) else none
      | none => none

/-- The last recognized marker for a domain in a line list. -/
def statusOf (ls : List Chars) (d : Chars) : Option Host :=
  (revFindD ls d).map Prod.snd

/-- One `Hosts::write_state` call viewed as a pure line-list transform
(the `hosts` index never changes during `commit`'s loop). -/
def wstep (idx : List (Chars × Nat × Host)) (file : List Chars) (q : Chars × Bool) :
    List Chars :=
  match lookupA idx q.1 with
  | some (i, _) => file.set i (host_line q.1 q.2)
  | none => file ++ [host_line q.1 q.2]

/-- The sequence of `write_state` calls a `commit` run performs. -/
def wfold (idx : List (Chars × Nat × Host)) (file : List Chars)
    (w : List (Chars × Bool)) : List Chars :=
  w.foldl (wstep idx) file

/-- The (domain, desired-state) pairs `commit`'s loop actually writes:
the domains whose parsed status disagrees with the desired status. -/
def writeListM (st : State) (idx : List (Chars × Nat × Host))
    (M : List (Chars × Chars)) : List (Chars × Bool) :=
  M.filterMap (fun p =>
    if is_lockedA idx p.1 = st.domanin_is_locked p.1 then none
    else some (p.1, st.domanin_is_locked p.1))

/-! Association-list lemmas. -/

theorem lookupA_setA {β : Type} (m : List (Chars × β)) (k k' : Chars) (v : β) :
    lookupA (setA m k v) k' = if k = k' then some v else lookupA m k' := by
  induction m with
  | nil => simp [setA, lookupA]
  | cons p rest ih =>
    by_cases h1 : p.1 = k
    · simp only [setA, if_pos h1, lookupA]
      by_cases h2 : k = k'
      · simp [h2]
      · have h3 : ¬ p.1 = k' := fun hc => h2 (h1.symm.trans hc)
        simp [h2, h3]
    · simp only [setA, if_neg h1, lookupA]
      by_cases h3 : p.1 = k'
      · have h2 : ¬ k = k' := fun hc => h1 (h3.trans hc.symm)
        simp [h2, h3]
      · simp [h3, ih]

/-! Character-class and token lemmas. -/

theorem token_not_space {c : Char} (h : isTokenChar c = true) : isSpaceChar c = false := by
  simp only [isTokenChar, Bool.and_eq_true, Bool.not_eq_true', beq_eq_false_iff_ne] at h
  simp only [isSpaceChar, Bool.or_eq_false_iff, beq_eq_false_iff_ne]
  exact ⟨h.1.2, h.1.1⟩

theorem takeWhile_all {p : Char → Bool} :
    ∀ {a : Chars}, (∀ c ∈ a, p c = true) → a.takeWhile p = a := by
  intro a
  induction a with
  | nil => intro _; rfl
  | cons c r ih =>
    intro h
    rw [List.takeWhile_cons, if_pos (h c (by simp)), ih (fun x hx => h x (by simp [hx]))]

theorem dropWhile_all {p : Char → Bool} :
    ∀ {a : Chars}, (∀ c ∈ a, p c = true) → a.dropWhile p = [] := by
  intro a
  induction a with
  | nil => intro _; rfl
  | cons c r ih =>
    intro h
    rw [List.dropWhile_cons, if_pos (h c (by simp))]
    exact ih (fun x hx => h x (by simp [hx]))

theorem host_nil : host ([] : Chars) = none := rfl

/-- A line freshly produced by `host_line` for a well-formed domain is
recognized back as exactly that domain, with the matching marker. -/
theorem host_host_line {d : Chars} (hd : validDomain d) (b : Bool) :
    host (host_line d b) = some (d, toHost b) := by
  obtain ⟨hne, hchars⟩ := hd
  have htok : ∀ c ∈ d, isTokenChar c = true := fun c hc => (hchars c hc).1
  have htw : List.takeWhile isTokenChar d = d := takeWhile_all htok
  have hdw : List.dropWhile isTokenChar d = [] := dropWhile_all htok
  have hds : List.dropWhile isSpaceChar d = d := by
    cases d with
    | nil => rfl
    | cons c r =>
      rw [List.dropWhile_cons, if_neg]
      simp [token_not_space (htok c (by simp))]
  cases b with
  | true =>
    show host ('1' :: '2' :: '7' :: '.' :: '0' :: '.' :: '0' :: '.' :: '1' :: ' ' :: d) =
      some (d, Host.Locked)
    simp +decide only [host, locked_host, comment_out, addr_domain,
      List.takeWhile_cons, List.dropWhile_cons, htw, hdw, hds, hne,
      if_true, if_false, reduceIte]
  | false =>
    show host ('#' :: ' ' :: '1' :: '2' :: '7' :: '.' :: '0' :: '.' :: '0' :: '.' :: '1'
        :: ' ' :: d) = some (d, Host.CommentedOut)
    simp +decide only [host, locked_host, comment_out, addr_domain,
      List.takeWhile_cons, List.dropWhile_cons, htw, hdw, hds, hne,
      if_true, if_false, reduceIte]

/-! Characterization of the parse index built by `Hosts::parse`. -/

theorem lookupA_parseIdxFrom (d : Chars) :
    ∀ (ls : List Chars) (n : Nat) (m : List (Chars × Nat × Host)),
      lookupA (parseIdxFrom n ls m) d =
        match revFindD ls d with
        | some (i, h) => some (n + i, h)
        | none => lookupA m d := by
  intro ls
  induction ls with
  | nil => intro n m; rfl
  | cons l rest ih =>
    intro n m
    simp only [parseIdxFrom]
    rw [ih]
    cases hr : revFindD rest d with
    | some p =>
      obtain ⟨i, h⟩ := p
      simp only [revFindD, hr]
      have : n + 1 + i = n + (i + 1) := by omega
      rw [this]
    | none =>
      cases hh : host l with
      | none => simp [revFindD, hr, hh]
      | some p =>
        obtain ⟨d2, h⟩ := p
        by_cases hd : d2 = d
        · subst hd
          simp [revFindD, hr, hh, lookupA_setA]
        · simp [revFindD, hr, hh, hd, lookupA_setA]

theorem revFindD_none (d : Chars) :
    ∀ (ls : List Chars), revFindD ls d = none →
      ∀ (j : Nat) (hj : j < ls.length), ∀ h2, host ls[j] ≠ some (d, h2) := by
  intro ls
  induction ls with
  | nil => intro _ j hj; simp at hj
  | cons l rest ih =>
    intro hf j hj h2
    simp only [revFindD] at hf
    cases hr : revFindD rest d with
    | some p => rw [hr] at hf; obtain ⟨i, h⟩ := p; simp at hf
    | none =>
      rw [hr] at hf
      cases j with
      | zero =>
        simp only [List.getElem_cons_zero]
        intro hcl
        rw [hcl] at hf
        simp at hf
      | succ j2 =>
        simp only [List.getElem_cons_succ]
        exact ih hr j2 (by simpa using hj) h2

theorem revFindD_some (d : Chars) :
    ∀ (ls : List Chars) (i : Nat) (h : Host), revFindD ls d = some (i, h) →
      ∃ hi : i < ls.length, host ls[i] = some (d, h) ∧
        ∀ (j : Nat) (hj : j < ls.length), i < j → ∀ h2, host ls[j] ≠ some (d, h2) := by
  intro ls
  induction ls with
  | nil => intro i h hf; simp [revFindD] at hf
  | cons l rest ih =>
    intro i h hf
    cases hr : revFindD rest d with
    | some p =>
      obtain ⟨i0, h0⟩ := p
      simp only [revFindD, hr, Option.some_inj, Prod.mk.injEq] at hf
      obtain ⟨hi_eq, hh_eq⟩ := hf
      obtain ⟨hi0, hp0, ht0⟩ := ih i0 h0 hr
      subst hi_eq
      subst hh_eq
      refine ⟨by simpa using Nat.succ_lt_succ hi0, by simpa using hp0, ?_⟩
      intro j hj hij h2
      cases j with
      | zero => omega
      | succ j2 =>
        simp only [List.getElem_cons_succ]
        exact ht0 j2 (by simpa using hj) (by omega) h2
    | none =>
      cases hh : host l with
      | none => simp [revFindD, hr, hh] at hf
      | some p =>
        obtain ⟨d2, h0⟩ := p
        by_cases hd : d2 = d
        · subst hd
          simp only [revFindD, hr, hh, if_pos rfl, Option.some_inj, Prod.mk.injEq] at hf
          obtain ⟨rfl, rfl⟩ := hf
          refine ⟨by simp, by simpa using hh, ?_⟩
          intro j hj hij h2
          cases j with
          | zero => omega
          | succ j2 =>
            simp only [List.getElem_cons_succ]
            exact revFindD_none d2 rest hr j2 (by simpa using hj) h2
        · simp [revFindD, hr, hh, hd] at hf

/-- Any recognized line forces `revFindD` to find something. -/
theorem revFindD_isSome_of_parse (d : Chars) (ls : List Chars) (j : Nat)
    (hj : j < ls.length) (h2 : Host) (hp : host ls[j] = some (d, h2)) :
    revFindD ls d ≠ none := by
  intro hn
  exact revFindD_none d ls hn j hj h2 hp

/-- Value of `statusOf` at a position known to hold the last recognized line. -/
theorem statusOf_unique (ls : List Chars) (d : Chars) (i : Nat) (h : Host)
    (hi : i < ls.length) (hp : host ls[i] = some (d, h))
    (ht : ∀ (j : Nat) (hj : j < ls.length), i < j → ∀ h2, host ls[j] ≠ some (d, h2)) :
    statusOf ls d = some h := by
  unfold statusOf
  cases hr : revFindD ls d with
  | none => exact absurd hr (revFindD_isSome_of_parse d ls i hi h hp)
  | some p =>
    obtain ⟨i1, h1⟩ := p
    obtain ⟨hi1, hp1, ht1⟩ := revFindD_some d ls i1 h1 hr
    have hii : i1 = i := by
      rcases Nat.lt_trichotomy i1 i with hlt | heq | hgt
      · exact absurd hp (ht1 i hi hlt h)
      · exact heq
      · exact absurd hp1 (ht i1 hi1 hgt h1)
    subst hii
    rw [hp] at hp1
    simp only [Option.some_inj, Prod.mk.injEq] at hp1
    simp [hp1.2]

theorem statusOf_none_of_noParse (ls : List Chars) (d : Chars)
    (hn : ∀ (j : Nat) (hj : j < ls.length), ∀ h2, host ls[j] ≠ some (d, h2)) :
    statusOf ls d = none := by
  unfold statusOf
  cases hr : revFindD ls d with
  | none => rfl
  | some p =>
    obtain ⟨i1, h1⟩ := p
    obtain ⟨hi1, hp1, _⟩ := revFindD_some d ls i1 h1 hr
    exact absurd hp1 (hn i1 hi1 h1)

/-- Appending a line no parser recognizes does not change `revFindD`. -/
theorem revFindD_append_unrecognized (d : Chars) (x : Chars) (hx : host x = none) :
    ∀ (ls : List Chars), revFindD (ls ++ [x]) d = revFindD ls d := by
  intro ls
  induction ls with
  | nil => simp [revFindD, hx]
  | cons l rest ih =>
    simp only [List.cons_append, revFindD, List.append_eq]
    rw [ih]

/-- Value of `Hosts::is_locked` after a parse, expressed through `statusOf`. -/
theorem is_lockedA_parse (t : Chars) (d : Chars) :
    is_lockedA (Hosts.parse t).hosts d = hostBool (statusOf (splitLines t) d) := by
  show is_lockedA (parseIdxFrom 0 (splitLines t) []) d = _
  unfold is_lockedA statusOf
  rw [lookupA_parseIdxFrom]
  cases hr : revFindD (splitLines t) d with
  | none => rfl
  | some p =>
    obtain ⟨i, h⟩ := p
    cases h <;> rfl

/-! Round-trip lemmas between `splitLines` and `joinLines`. -/

theorem splitInclusive_single {a : Chars} (hn : '\n' ∉ a) (hne : a ≠ []) :
    splitInclusive a = [a] := by
  induction a with
  | nil => exact absurd rfl hne
  | cons c r ih =>
    have hc : ¬ c = '\n' := fun hc => hn (by simp [hc])
    rw [splitInclusive, if_neg hc]
    cases hr : r with
    | nil => rfl
    | cons c2 r2 =>
      rw [← hr, ih (fun hm => hn (by simp [hm])) (by simp [hr])]

theorem splitInclusive_break {a : Chars} (hn : '\n' ∉ a) (t : Chars) :
    splitInclusive (a ++ '\n' :: t) = (a ++ ['\n']) :: splitInclusive t := by
  induction a with
  | nil => simp [splitInclusive]
  | cons c r ih =>
    have hc : ¬ c = '\n' := fun hc => hn (by simp [hc])
    rw [List.cons_append, splitInclusive, if_neg hc,
      ih (fun hm => hn (by simp [hm]))]
    rfl

theorem splitInclusive_chars {s : Chars} :
    ∀ l ∈ splitInclusive s, ∀ c ∈ l, c ∈ s := by
  induction s with
  | nil => intro l hl; simp [splitInclusive] at hl
  | cons c0 r ih =>
    intro l hl c hc
    rw [splitInclusive] at hl
    by_cases hc0 : c0 = '\n'
    · rw [if_pos hc0] at hl
      rcases List.mem_cons.mp hl with h1 | h1
      · subst h1
        simp only [List.mem_singleton] at hc
        exact List.mem_cons.mpr (Or.inl (hc.trans hc0.symm))
      · exact List.mem_cons.mpr (Or.inr (ih l h1 c hc))
    · rw [if_neg hc0] at hl
      cases hsr : splitInclusive r with
      | nil =>
        rw [hsr] at hl
        simp only [List.mem_singleton] at hl
        subst hl
        simp only [List.mem_singleton] at hc
        exact List.mem_cons.mpr (Or.inl hc)
      | cons l0 ls0 =>
        rw [hsr] at hl
        rcases List.mem_cons.mp hl with h1 | h1
        · subst h1
          rcases List.mem_cons.mp hc with hce | hcm
          · exact List.mem_cons.mpr (Or.inl hce)
          · exact List.mem_cons.mpr (Or.inr (ih l0 (by simp [hsr]) c hcm))
        · exact List.mem_cons.mpr (Or.inr (ih l (by simp [hsr, h1]) c hc))

theorem splitInclusive_shape {s : Chars} :
    ∀ l ∈ splitInclusive s, '\n' ∉ l ∨ ∃ q, l = q ++ ['\n'] ∧ '\n' ∉ q := by
  induction s with
  | nil => intro l hl; simp [splitInclusive] at hl
  | cons c0 r ih =>
    intro l hl
    rw [splitInclusive] at hl
    by_cases hc0 : c0 = '\n'
    · rw [if_pos hc0] at hl
      rcases List.mem_cons.mp hl with h1 | h1
      · subst h1
        exact Or.inr ⟨[], by simp⟩
      · exact ih l h1
    · rw [if_neg hc0] at hl
      cases hsr : splitInclusive r with
      | nil =>
        rw [hsr] at hl
        simp only [List.mem_singleton] at hl
        subst hl
        refine Or.inl ?_
        simp only [List.mem_singleton]
        exact fun hc => hc0 hc.symm
      | cons l0 ls0 =>
        rw [hsr] at hl
        rcases List.mem_cons.mp hl with h1 | h1
        · subst h1
          rcases ih l0 (by simp [hsr]) with hnl | ⟨q, hq, hqn⟩
          · refine Or.inl ?_
            intro hm
            rcases List.mem_cons.mp hm with hce | hcm
            · exact hc0 hce.symm
            · exact hnl hcm
          · refine Or.inr ⟨c0 :: q, by simp [hq], ?_⟩
            intro hm
            rcases List.mem_cons.mp hm with hce | hcm
            · exact hc0 hce.symm
            · exact hqn hcm
        · exact ih l (by simp [hsr, h1])

theorem stripCRRev_chars {m : Chars} : ∀ c ∈ stripCRRev m, c ∈ m := by
  intro c hc
  cases m with
  | nil => simp [stripCRRev] at hc
  | cons c2 r2 =>
    by_cases h2 : c2 = '\r'
    · simp only [stripCRRev, if_pos h2] at hc
      exact List.mem_cons.mpr (Or.inr hc)
    · simpa only [stripCRRev, if_neg h2] using hc

theorem stripLineEndingRev_chars {m : Chars} : ∀ c ∈ stripLineEndingRev m, c ∈ m := by
  intro c hc
  cases m with
  | nil => simp [stripLineEndingRev] at hc
  | cons c0 r =>
    by_cases h0 : c0 = '\n'
    · simp only [stripLineEndingRev, if_pos h0] at hc
      exact List.mem_cons.mpr (Or.inr (stripCRRev_chars c hc))
    · simpa only [stripLineEndingRev, if_neg h0] using hc

theorem stripLineEnding_chars {l : Chars} :
    ∀ c ∈ stripLineEnding l, c ∈ l := by
  intro c hc
  unfold stripLineEnding at hc
  have h1 : c ∈ stripLineEndingRev l.reverse := List.mem_reverse.mp hc
  exact List.mem_reverse.mp (stripLineEndingRev_chars c h1)

theorem stripLineEnding_of_noNl {l : Chars} (hn : '\n' ∉ l) :
    stripLineEnding l = l := by
  unfold stripLineEnding
  cases hrev : l.reverse with
  | nil => simpa [stripLineEndingRev] using congrArg List.reverse hrev.symm
  | cons c r =>
    have hc : ¬ c = '\n' := by
      intro hc
      exact hn (List.mem_reverse.mp (by simp [hrev, hc]))
    rw [stripLineEndingRev, if_neg hc, ← hrev, List.reverse_reverse]

theorem stripLineEnding_cut {q : Chars} (_hn : '\n' ∉ q) (hr : '\r' ∉ q) :
    stripLineEnding (q ++ ['\n']) = q := by
  unfold stripLineEnding
  have hrev : (q ++ ['\n']).reverse = '\n' :: q.reverse := by simp
  rw [hrev, stripLineEndingRev, if_pos rfl]
  cases hq : q.reverse with
  | nil => simpa [stripCRRev] using congrArg List.reverse hq.symm
  | cons c2 r2 =>
    have hc2 : ¬ c2 = '\r' := by
      intro hc
      exact hr (List.mem_reverse.mp (by simp [hq, hc]))
    rw [stripCRRev, if_neg hc2, ← hq, List.reverse_reverse]

theorem stripLineEnding_cut_noNl {q : Chars} (hn : '\n' ∉ q) :
    '\n' ∉ stripLineEnding (q ++ ['\n']) := by
  intro hm
  have h1 := stripLineEnding_chars (l := q ++ ['\n']) '\n' hm
  unfold stripLineEnding at hm
  have hrev : (q ++ ['\n']).reverse = '\n' :: q.reverse := by simp
  rw [hrev, stripLineEndingRev, if_pos rfl] at hm
  have h2 : ('\n' : Char) ∈ stripCRRev q.reverse := List.mem_reverse.mp hm
  exact hn (List.mem_reverse.mp (stripCRRev_chars _ h2))

theorem splitLines_noNl {s : Chars} : ∀ l ∈ splitLines s, '\n' ∉ l := by
  intro l hl
  unfold splitLines at hl
  rcases List.mem_map.mp hl with ⟨piece, hmem, hstrip⟩
  rcases splitInclusive_shape piece hmem with hp | ⟨q, hq, hqn⟩
  · rw [← hstrip, stripLineEnding_of_noNl hp]; exact hp
  · rw [← hstrip, hq]; exact stripLineEnding_cut_noNl hqn

theorem splitLines_chars {s : Chars} : ∀ l ∈ splitLines s, ∀ c ∈ l, c ∈ s := by
  intro l hl c hc
  unfold splitLines at hl
  rcases List.mem_map.mp hl with ⟨piece, hmem, hstrip⟩
  rw [← hstrip] at hc
  exact splitInclusive_chars piece hmem c (stripLineEnding_chars c hc)

/-- Joining clean lines and re-splitting returns the lines, except that
one trailing empty line is absorbed. -/
theorem splitLines_joinLines (ls : List Chars)
    (hcl : ∀ l ∈ ls, '\n' ∉ l ∧ '\r' ∉ l) :
    splitLines (joinLines ls) = ls ∨
      ∃ ls0, ls = ls0 ++ [[]] ∧ splitLines (joinLines ls) = ls0 := by
  induction ls with
  | nil => exact Or.inl rfl
  | cons a rest ih =>
    cases rest with
    | nil =>
      by_cases ha : a = []
      · subst ha
        exact Or.inr ⟨[], rfl, rfl⟩
      · left
        show splitLines a = [a]
        unfold splitLines
        rw [splitInclusive_single (hcl a (by simp)).1 ha]
        simp [stripLineEnding_of_noNl (hcl a (by simp)).1]
    | cons b rest2 =>
      have hjoin : joinLines (a :: b :: rest2) = a ++ '\n' :: joinLines (b :: rest2) := rfl
      have hsplit : splitLines (joinLines (a :: b :: rest2)) =
          a :: splitLines (joinLines (b :: rest2)) := by
        unfold splitLines
        rw [hjoin, splitInclusive_break (hcl a (by simp)).1]
        simp only [List.map_cons]
        rw [stripLineEnding_cut (hcl a (by simp)).1 (hcl a (by simp)).2]
      rcases ih (fun l hl => hcl l (by simp [hl])) with hc | ⟨ls0, hls0, hres⟩
      · left; rw [hsplit, hc]
      · right
        exact ⟨a :: ls0, by simp [hls0], by rw [hsplit, hres]⟩

/-! Characterization of `commitScan` as a batch of `write_state` calls. -/

theorem write_state_hosts (hs : Hosts) (d : Chars) (b : Bool) :
    (hs.write_state d b).hosts = hs.hosts := by
  rcases hq : lookupA hs.hosts d with _ | ⟨i, h0⟩ <;> simp [Hosts.write_state, hq]

theorem write_state_file (hs : Hosts) (d : Chars) (b : Bool) :
    (hs.write_state d b).hosts_file = wstep hs.hosts hs.hosts_file (d, b) := by
  rcases hq : lookupA hs.hosts d with _ | ⟨i, h0⟩ <;> simp [Hosts.write_state, wstep, hq]

theorem wfold_cons (idx : List (Chars × Nat × Host)) (file : List Chars)
    (q : Chars × Bool) (w : List (Chars × Bool)) :
    wfold idx file (q :: w) = wfold idx (wstep idx file q) w := rfl

theorem commitScan_foldl (st : State) :
    ∀ (M : List (Chars × Chars)) (h : Hosts) (b : Bool),
      M.foldl (commitStep st) (h, b) =
        (⟨wfold h.hosts h.hosts_file (writeListM st h.hosts M), h.hosts⟩,
          b || M.any (fun p => !(is_lockedA h.hosts p.1 == st.domanin_is_locked p.1))) := by
  intro M
  induction M with
  | nil => intro h b; simp [wfold, writeListM]
  | cons p M2 ih =>
    intro h b
    rw [List.foldl_cons]
    by_cases heq : is_lockedA h.hosts p.1 = st.domanin_is_locked p.1
    · have hstep : commitStep st (h, b) p = (h, b) := by
        simp [commitStep, Hosts.is_locked, heq]
      rw [hstep, ih]
      have hwl : writeListM st h.hosts (p :: M2) = writeListM st h.hosts M2 := by
        simp [writeListM, heq]
      rw [hwl]
      simp [heq]
    · have hstep : commitStep st (h, b) p =
          (h.write_state p.1 (st.domanin_is_locked p.1), true) := by
        simp [commitStep, Hosts.is_locked, heq]
      rw [hstep, ih]
      have hwl : writeListM st h.hosts (p :: M2) =
          (p.1, st.domanin_is_locked p.1) :: writeListM st h.hosts M2 := by
        simp [writeListM, heq]
      rw [hwl, wfold_cons, write_state_hosts, write_state_file]
      simp [heq]

theorem commitScan_eq (st : State) (text : Chars) :
    commitScan st text =
      (⟨wfold (Hosts.parse text).hosts (splitLines text)
          (writeListM st (Hosts.parse text).hosts st.domain_map),
        (Hosts.parse text).hosts⟩,
        st.domain_map.any (fun p =>
          !(is_lockedA (Hosts.parse text).hosts p.1 == st.domanin_is_locked p.1))) := by
  unfold commitScan
  rw [commitScan_foldl]
  rfl

theorem commitScan_flag_false (st : State) (text : Chars) :
    (commitScan st text).2 = false ↔
      ∀ p ∈ st.domain_map,
        is_lockedA (Hosts.parse text).hosts p.1 = st.domanin_is_locked p.1 := by
  rw [commitScan_eq]
  simp [List.any_eq_false]

theorem wfold_clean (P : Chars → Prop) (idx : List (Chars × Nat × Host)) :
    ∀ (w : List (Chars × Bool)) (file : List Chars),
      (∀ l ∈ file, P l) → (∀ q ∈ w, P (host_line q.1 q.2)) →
      ∀ l ∈ wfold idx file w, P l := by
  intro w
  induction w with
  | nil => intro file hf _ l hl; exact hf l hl
  | cons q w2 ih =>
    intro file hf hw l hl
    rw [wfold_cons] at hl
    refine ih (wstep idx file q) ?_ (fun q2 hq2 => hw q2 (by simp [hq2])) l hl
    intro l2 hl2
    rcases hq : lookupA idx q.1 with _ | ⟨i, h0⟩
    · rw [wstep, hq] at hl2
      rcases List.mem_append.mp hl2 with h1 | h1
      · exact hf l2 h1
      · simp only [List.mem_singleton] at h1
        subst h1; exact hw q (by simp)
    · rw [wstep, hq] at hl2
      rcases List.mem_or_eq_of_mem_set hl2 with h1 | h1
      · exact hf l2 h1
      · subst h1; exact hw q (by simp)

theorem writeListM_mem (st : State) (idx : List (Chars × Nat × Host))
    (M : List (Chars × Chars)) (q : Chars × Bool) (hq : q ∈ writeListM st idx M) :
    (∃ p ∈ M, p.1 = q.1) ∧ q.2 = st.domanin_is_locked q.1 ∧
      is_lockedA idx q.1 ≠ st.domanin_is_locked q.1 := by
  unfold writeListM at hq
  rcases List.mem_filterMap.mp hq with ⟨p, hp, hfp⟩
  by_cases htest : is_lockedA idx p.1 = st.domanin_is_locked p.1
  · rw [if_pos htest] at hfp; exact absurd hfp (by simp)
  · rw [if_neg htest] at hfp
    have h1 : q = (p.1, st.domanin_is_locked p.1) := by
      have := Option.some_inj.mp hfp
      exact this.symm
    subst h1
    exact ⟨⟨p, hp, rfl⟩, rfl, htest⟩

theorem writeListM_mem_of (st : State) (idx : List (Chars × Nat × Host))
    (M : List (Chars × Chars)) (p : Chars × Chars) (hp : p ∈ M)
    (hne : is_lockedA idx p.1 ≠ st.domanin_is_locked p.1) :
    (p.1, st.domanin_is_locked p.1) ∈ writeListM st idx M := by
  unfold writeListM
  exact List.mem_filterMap.mpr ⟨p, hp, by rw [if_neg hne]⟩

theorem writeListM_not_mem_key (st : State) (idx : List (Chars × Nat × Host))
    (M : List (Chars × Chars)) (p : Chars × Chars) (hp : p ∈ M)
    (hnk : p.1 ∉ (writeListM st idx M).map Prod.fst) :
    is_lockedA idx p.1 = st.domanin_is_locked p.1 := by
  by_contra hne
  exact hnk (List.mem_map.mpr
    ⟨(p.1, st.domanin_is_locked p.1), writeListM_mem_of st idx M p hp hne, rfl⟩)

theorem hostBool_toHost (b : Bool) : hostBool (some (toHost b)) = b := by
  cases b <;> rfl

theorem wstep_length (idx : List (Chars × Nat × Host)) (file : List Chars)
    (q : Chars × Bool) : file.length ≤ (wstep idx file q).length := by
  rcases hq : lookupA idx q.1 with _ | ⟨i, h0⟩ <;> simp [wstep, hq]

/-- The invariant `wfold` preserves around the recorded line of a
domain that is present in the parse index. -/
theorem wfold_present (idx : List (Chars × Nat × Host)) (L : List Chars)
    (des : Chars → Bool)
    (hidx : ∀ dd i hh, lookupA idx dd = some (i, hh) →
      ∃ hi : i < L.length, host L[i] = some (dd, hh))
    (d0 : Chars) (i0 : Nat) (h0 : Host) (hl0 : lookupA idx d0 = some (i0, h0)) :
    ∀ (w : List (Chars × Bool)) (file : List Chars),
      (∀ q ∈ w, validDomain q.1 ∧ q.2 = des q.1) →
      L.length ≤ file.length →
      (∀ (j : Nat) (hj : j < file.length), i0 < j → ∀ h2, host file[j] ≠ some (d0, h2)) →
      L.length ≤ (wfold idx file w).length ∧
      (∀ (j : Nat) (hj : j < (wfold idx file w).length), i0 < j →
        ∀ h2, host (wfold idx file w)[j] ≠ some (d0, h2)) ∧
      (d0 ∉ w.map Prod.fst →
        ∀ (hi1 : i0 < file.length) (hi2 : i0 < (wfold idx file w).length),
          (wfold idx file w)[i0] = file[i0]) ∧
      (d0 ∈ w.map Prod.fst →
        ∀ hi2 : i0 < (wfold idx file w).length,
          (wfold idx file w)[i0] = host_line d0 (des d0)) := by
  obtain ⟨hi0L, hp0⟩ := hidx d0 i0 h0 hl0
  intro w
  induction w with
  | nil =>
    intro file hw hlen htail
    refine ⟨hlen, htail, ?_, ?_⟩
    · intro _ hi1 hi2; rfl
    · intro hmem; simp at hmem
  | cons q w2 ih =>
    intro file hw hlen htail
    obtain ⟨hqval, hqdes⟩ := hw q (by simp)
    have hlen1 : L.length ≤ (wstep idx file q).length :=
      le_trans hlen (wstep_length idx file q)
    have htail1 : ∀ (j : Nat) (hj : j < (wstep idx file q).length), i0 < j →
        ∀ h2, host (wstep idx file q)[j] ≠ some (d0, h2) := by
      rcases hq : lookupA idx q.1 with _ | ⟨i, hh⟩
      · have he : wstep idx file q = file ++ [host_line q.1 q.2] := by simp [wstep, hq]
        rw [he]
        intro j hj hij h2
        by_cases hjf : j < file.length
        · rw [List.getElem_append_left hjf]
          exact htail j hjf hij h2
        · have hjl : j = file.length := by
            simp only [List.length_append, List.length_singleton] at hj
            omega
          rw [List.getElem_concat_length _ _ _ hjl]
          rw [host_host_line hqval]
          intro hcontra
          simp only [Option.some_inj, Prod.mk.injEq] at hcontra
          rw [hcontra.1] at hq
          rw [hq] at hl0
          exact Option.noConfusion hl0
      · have he : wstep idx file q = file.set i (host_line q.1 q.2) := by simp [wstep, hq]
        rw [he]
        intro j hj hij h2
        rw [List.getElem_set]
        by_cases hij2 : i = j
        · rw [if_pos hij2, host_host_line hqval]
          intro hcontra
          simp only [Option.some_inj, Prod.mk.injEq] at hcontra
          rw [hcontra.1] at hq
          rw [hq] at hl0
          have : i = i0 := by
            have := Option.some_inj.mp hl0
            exact (Prod.mk.injEq _ _ _ _).mp this |>.1
          omega
        · rw [if_neg hij2]
          exact htail j (by simpa using hj) hij h2
    obtain ⟨len2, tail2, c3, c4⟩ := ih (wstep idx file q) (fun q2 hq2 => hw q2 (by simp [hq2]))
      hlen1 htail1
    rw [wfold_cons]
    refine ⟨len2, tail2, ?_, ?_⟩
    · intro hnm hi1 hi2
      have hdq : q.1 ≠ d0 := by
        intro hc
        exact hnm (by simp [hc])
      have hnm2 : d0 ∉ w2.map Prod.fst := fun hm => hnm (by simp [hm])
      have hstep_eq : ∀ hi3 : i0 < (wstep idx file q).length,
          (wstep idx file q)[i0] = file[i0] := by
        rcases hq : lookupA idx q.1 with _ | ⟨i, hh⟩
        · have he : wstep idx file q = file ++ [host_line q.1 q.2] := by simp [wstep, hq]
          rw [he]
          intro hi3
          rw [List.getElem_append_left hi1]
        · have he : wstep idx file q = file.set i (host_line q.1 q.2) := by simp [wstep, hq]
          rw [he]
          intro hi3
          have hii : i ≠ i0 := by
            intro hc
            subst hc
            obtain ⟨hiL, hpi⟩ := hidx q.1 i hh hq
            rw [hp0] at hpi
            have := Option.some_inj.mp hpi
            exact hdq ((Prod.mk.injEq _ _ _ _).mp this).1.symm
          rw [List.getElem_set, if_neg hii]
      have hi1b : i0 < (wstep idx file q).length := lt_of_lt_of_le hi1 (wstep_length idx file q)
      rw [c3 hnm2 hi1b hi2]
      exact hstep_eq hi1b
    · intro hmem hi2
      by_cases hdq : q.1 = d0
      · subst hdq
        have he : wstep idx file q = file.set i0 (host_line q.1 (des q.1)) := by
          rw [← hqdes]
          simp [wstep, hl0]
        by_cases hmem2 : q.1 ∈ w2.map Prod.fst
        · exact c4 hmem2 hi2
        · have hi1b : i0 < (wstep idx file q).length := by
            have : i0 < file.length := lt_of_lt_of_le hi0L hlen
            exact lt_of_lt_of_le this (wstep_length idx file q)
          rw [c3 hmem2 hi1b hi2]
          simp [he, List.getElem_set]
      · have hmem2 : d0 ∈ w2.map Prod.fst := by
          rw [List.map_cons] at hmem
          rcases List.mem_cons.mp hmem with h1 | h1
          · exact absurd h1.symm hdq
          · exact h1
        exact c4 hmem2 hi2

/-- When no line recognizes an absent domain and no write targets it,
the fold never creates one. -/
theorem wfold_absent_noParse (idx : List (Chars × Nat × Host)) (d0 : Chars) :
    ∀ (w : List (Chars × Bool)) (file : List Chars),
      (∀ q ∈ w, validDomain q.1) →
      d0 ∉ w.map Prod.fst →
      (∀ (j : Nat) (hj : j < file.length), ∀ h2, host file[j] ≠ some (d0, h2)) →
      ∀ (j : Nat) (hj : j < (wfold idx file w).length), ∀ h2,
        host (wfold idx file w)[j] ≠ some (d0, h2) := by
  intro w
  induction w with
  | nil => intro file _ _ hn; exact hn
  | cons q w2 ih =>
    intro file hw hnm hn
    have hdq : q.1 ≠ d0 := by
      intro hc
      exact hnm (by simp [hc])
    have hn1 : ∀ (j : Nat) (hj : j < (wstep idx file q).length), ∀ h2,
        host (wstep idx file q)[j] ≠ some (d0, h2) := by
      rcases hq : lookupA idx q.1 with _ | ⟨i, hh⟩
      · have he : wstep idx file q = file ++ [host_line q.1 q.2] := by simp [wstep, hq]
        rw [he]
        intro j hj h2
        by_cases hjf : j < file.length
        · rw [List.getElem_append_left hjf]
          exact hn j hjf h2
        · have hjl : j = file.length := by
            simp only [List.length_append, List.length_singleton] at hj
            omega
          rw [List.getElem_concat_length _ _ _ hjl, host_host_line (hw q (by simp))]
          intro hcontra
          simp only [Option.some_inj, Prod.mk.injEq] at hcontra
          exact hdq hcontra.1
      · have he : wstep idx file q = file.set i (host_line q.1 q.2) := by simp [wstep, hq]
        rw [he]
        intro j hj h2
        rw [List.getElem_set]
        by_cases hij : i = j
        · rw [if_pos hij, host_host_line (hw q (by simp))]
          intro hcontra
          simp only [Option.some_inj, Prod.mk.injEq] at hcontra
          exact hdq hcontra.1
        · rw [if_neg hij]
          exact hn j (by simpa using hj) h2
    rw [wfold_cons]
    exact ih (wstep idx file q) (fun q2 hq2 => hw q2 (by simp [hq2]))
      (fun hm => hnm (by simp [hm])) hn1

/-- For an absent domain, every line the fold can create for it is the
canonical freshly written line, and once one exists it survives. -/
theorem wfold_absent_inv (idx : List (Chars × Nat × Host)) (L : List Chars)
    (des : Chars → Bool)
    (hidx : ∀ dd i hh, lookupA idx dd = some (i, hh) →
      ∃ hi : i < L.length, host L[i] = some (dd, hh))
    (d0 : Chars) (hl0 : lookupA idx d0 = none) :
    ∀ (w : List (Chars × Bool)) (file : List Chars),
      (∀ q ∈ w, validDomain q.1 ∧ q.2 = des q.1) →
      L.length ≤ file.length →
      (∀ (j : Nat) (hj : j < file.length), ∀ h2, host file[j] = some (d0, h2) →
        L.length ≤ j ∧ file[j] = host_line d0 (des d0)) →
      (∀ (j : Nat) (hj : j < (wfold idx file w).length), ∀ h2,
        host (wfold idx file w)[j] = some (d0, h2) →
        L.length ≤ j ∧ (wfold idx file w)[j] = host_line d0 (des d0)) ∧
      ((d0 ∈ w.map Prod.fst ∨
          ∃ (j : Nat) (hj : j < file.length), L.length ≤ j ∧
            file[j] = host_line d0 (des d0)) →
        ∃ (j : Nat) (hj : j < (wfold idx file w).length), L.length ≤ j ∧
          (wfold idx file w)[j] = host_line d0 (des d0)) := by
  intro w
  induction w with
  | nil =>
    intro file hw hlen hinv
    refine ⟨hinv, ?_⟩
    intro hpre
    rcases hpre with hpre | hpre
    · simp at hpre
    · exact hpre
  | cons q w2 ih =>
    intro file hw hlen hinv
    obtain ⟨hqval, hqdes⟩ := hw q (by simp)
    have hlen1 : L.length ≤ (wstep idx file q).length :=
      le_trans hlen (wstep_length idx file q)
    rcases hq : lookupA idx q.1 with _ | ⟨i, hh⟩
    · -- append step
      have he : wstep idx file q = file ++ [host_line q.1 q.2] := by simp [wstep, hq]
      have hinv1 : ∀ (j : Nat) (hj : j < (wstep idx file q).length), ∀ h2,
          host (wstep idx file q)[j] = some (d0, h2) →
          L.length ≤ j ∧ (wstep idx file q)[j] = host_line d0 (des d0) := by
        rw [he]
        intro j hj h2
        by_cases hjf : j < file.length
        · rw [List.getElem_append_left hjf]
          exact hinv j hjf h2
        · have hjl : j = file.length := by
            simp only [List.length_append, List.length_singleton] at hj
            omega
          rw [List.getElem_concat_length _ _ _ hjl, host_host_line hqval]
          intro hcontra
          simp only [Option.some_inj, Prod.mk.injEq] at hcontra
          rw [← hcontra.1]
          exact ⟨by omega, by rw [hqdes]⟩
      obtain ⟨inv2, ex2⟩ := ih (wstep idx file q) (fun q2 hq2 => hw q2 (by simp [hq2]))
        hlen1 hinv1
      rw [wfold_cons]
      refine ⟨inv2, ?_⟩
      intro hpre
      refine ex2 ?_
      rcases hpre with hpre | ⟨j, hj, hLj, hcontent⟩
      · rw [List.map_cons] at hpre
        rcases List.mem_cons.mp hpre with h1 | h1
        · -- the head write appends the canonical line for d0
          right
          refine ⟨file.length, ?_, hlen, ?_⟩
          · rw [he]; simp
          · simp only [he]
            rw [List.getElem_concat_length _ _ _ rfl, hqdes, ← h1]
        · exact Or.inl h1
      · right
        refine ⟨j, ?_, hLj, ?_⟩
        · rw [he]
          simp only [List.length_append, List.length_singleton]
          omega
        · simp only [he]
          rw [List.getElem_append_left hj, hcontent]
    · -- replace step
      have he : wstep idx file q = file.set i (host_line q.1 q.2) := by simp [wstep, hq]
      have hdq : q.1 ≠ d0 := by
        intro hc
        rw [hc, hl0] at hq
        exact Option.noConfusion hq
      obtain ⟨hiL, hpi⟩ := hidx q.1 i hh hq
      have hinv1 : ∀ (j : Nat) (hj : j < (wstep idx file q).length), ∀ h2,
          host (wstep idx file q)[j] = some (d0, h2) →
          L.length ≤ j ∧ (wstep idx file q)[j] = host_line d0 (des d0) := by
        rw [he]
        intro j hj h2
        rw [List.getElem_set]
        by_cases hij : i = j
        · rw [if_pos hij, host_host_line hqval]
          intro hcontra
          simp only [Option.some_inj, Prod.mk.injEq] at hcontra
          exact absurd hcontra.1 hdq
        · rw [if_neg hij]
          exact hinv j (by simpa using hj) h2
      obtain ⟨inv2, ex2⟩ := ih (wstep idx file q) (fun q2 hq2 => hw q2 (by simp [hq2]))
        hlen1 hinv1
      rw [wfold_cons]
      refine ⟨inv2, ?_⟩
      intro hpre
      refine ex2 ?_
      rcases hpre with hpre | ⟨j, hj, hLj, hcontent⟩
      · rw [List.map_cons] at hpre
        rcases List.mem_cons.mp hpre with h1 | h1
        · exact absurd h1.symm hdq
        · exact Or.inl h1
      · right
        have hij : i ≠ j := by omega
        refine ⟨j, ?_, hLj, ?_⟩
        · rw [he]; simpa using hj
        · simp only [he]
          rw [List.getElem_set, if_neg hij, hcontent]

/-- The final marker for a domain all of whose recognized lines are the
canonical line, one of which exists. -/
theorem statusOf_of_allEq (ls : List Chars) (d : Chars) (b : Bool)
    (hval : validDomain d)
    (hall : ∀ (j : Nat) (hj : j < ls.length), ∀ h2, host ls[j] = some (d, h2) →
      ls[j] = host_line d b)
    (hex : ∃ (j : Nat) (hj : j < ls.length), ls[j] = host_line d b) :
    statusOf ls d = some (toHost b) := by
  obtain ⟨j, hj, hcontent⟩ := hex
  have hpj : host ls[j] = some (d, toHost b) := by
    rw [hcontent]; exact host_host_line hval b
  cases hr : revFindD ls d with
  | none => exact absurd hr (revFindD_isSome_of_parse d ls j hj _ hpj)
  | some p =>
    obtain ⟨i1, h1⟩ := p
    obtain ⟨hi1, hp1, _⟩ := revFindD_some d ls i1 h1 hr
    have hline := hall i1 hi1 h1 hp1
    rw [hline, host_host_line hval b] at hp1
    simp only [Option.some_inj, Prod.mk.injEq] at hp1
    simp [statusOf, hr, hp1.2]

theorem is_lockedA_some {idx : List (Chars × Nat × Host)} {d : Chars} {i : Nat}
    {h : Host} (hlk : lookupA idx d = some (i, h)) :
    is_lockedA idx d = hostBool (some h) := by
  unfold is_lockedA
  rw [hlk]
  cases h <;> rfl

theorem is_lockedA_none {idx : List (Chars × Nat × Host)} {d : Chars}
    (hlk : lookupA idx d = none) : is_lockedA idx d = false := by
  unfold is_lockedA
  rw [hlk]

theorem statusOf_append_nil (ls : List Chars) (d : Chars) :
    statusOf (ls ++ [[]]) d = statusOf ls d := by
  unfold statusOf
  rw [revFindD_append_unrecognized d [] host_nil]

theorem host_line_clean {d : Chars} (hd : validDomain d) (b : Bool) :
    '\n' ∉ host_line d b ∧ '\r' ∉ host_line d b := by
  obtain ⟨hne, hchars⟩ := hd
  cases b with
  | true =>
    constructor <;> intro hm <;> rcases List.mem_append.mp hm with h1 | h1
    · exact absurd h1 (by decide)
    · exact (hchars _ h1).2.1 rfl
    · exact absurd h1 (by decide)
    · exact (hchars _ h1).2.2 rfl
  | false =>
    constructor <;> intro hm <;> rcases List.mem_append.mp hm with h1 | h1
    · exact absurd h1 (by decide)
    · exact (hchars _ h1).2.1 rfl
    · exact absurd h1 (by decide)
    · exact (hchars _ h1).2.2 rfl

theorem writeListM_prop (st : State) (idx : List (Chars × Nat × Host))
    (hdom : ∀ p ∈ st.domain_map, validDomain p.1) :
    ∀ q ∈ writeListM st idx st.domain_map,
      validDomain q.1 ∧ q.2 = st.domanin_is_locked q.1 := by
  intro q hq
  obtain ⟨⟨p, hp, hp1⟩, h2, _⟩ := writeListM_mem st idx st.domain_map q hq
  exact ⟨hp1 ▸ hdom p hp, h2⟩

/-- The inversion of a parse-index lookup back to `revFindD`. -/
theorem revFindD_of_lookupA (text : Chars) (dd : Chars) :
    lookupA (Hosts.parse text).hosts dd =
      match revFindD (splitLines text) dd with
      | some (i, h) => some (i, h)
      | none => none := by
  show lookupA (parseIdxFrom 0 (splitLines text) []) dd = _
  rw [lookupA_parseIdxFrom]
  cases hr : revFindD (splitLines text) dd with
  | none => rfl
  | some p =>
    obtain ⟨i, h⟩ := p
    simp

/-- The heart of C7: after `commit` has rewritten the document, a second
scan of the written document finds every domain of the index already in
its desired state, provided the domains are well-formed tokens and the
document carries no carriage returns. -/
theorem commitScan_rescan_false (st : State) (text : Chars)
    (hdom : ∀ p ∈ st.domain_map, validDomain p.1)
    (hcr : '\r' ∉ text) :
    (commitScan st (commitScan st text).1.exportText).2 = false := by
  have hidx : ∀ dd i hh, lookupA (Hosts.parse text).hosts dd = some (i, hh) →
      ∃ hi : i < (splitLines text).length, host (splitLines text)[i] = some (dd, hh) := by
    intro dd i hh hlk
    rw [revFindD_of_lookupA] at hlk
    cases hr : revFindD (splitLines text) dd with
    | none => rw [hr] at hlk; exact Option.noConfusion hlk
    | some p =>
      obtain ⟨i2, h2⟩ := p
      rw [hr] at hlk
      simp only [Option.some_inj, Prod.mk.injEq] at hlk
      obtain ⟨hi_eq, hh_eq⟩ := hlk
      obtain ⟨hi, hpar, _⟩ := revFindD_some dd (splitLines text) i2 h2 hr
      rw [← hi_eq, ← hh_eq]
      exact ⟨hi, hpar⟩
  have hWprop := writeListM_prop st (Hosts.parse text).hosts hdom
  have hfile : (commitScan st text).1.hosts_file =
      wfold (Hosts.parse text).hosts (splitLines text)
        (writeListM st (Hosts.parse text).hosts st.domain_map) := by
    rw [commitScan_eq]
  have htext2 : (commitScan st text).1.exportText =
      joinLines (wfold (Hosts.parse text).hosts (splitLines text)
        (writeListM st (Hosts.parse text).hosts st.domain_map)) := by
    rw [commitScan_eq]
    rfl
  have hcl_file : ∀ l ∈ wfold (Hosts.parse text).hosts (splitLines text)
      (writeListM st (Hosts.parse text).hosts st.domain_map), '\n' ∉ l ∧ '\r' ∉ l := by
    apply wfold_clean
    · intro l hl
      exact ⟨splitLines_noNl l hl, fun hm => hcr (splitLines_chars l hl '\r' hm)⟩
    · intro q hq
      exact host_line_clean (hWprop q hq).1 q.2
  have hJ := splitLines_joinLines _ hcl_file
  have hstatus : ∀ dd, statusOf (splitLines ((commitScan st text).1.exportText)) dd =
      statusOf (wfold (Hosts.parse text).hosts (splitLines text)
        (writeListM st (Hosts.parse text).hosts st.domain_map)) dd := by
    intro dd
    rw [htext2]
    rcases hJ with hJ | ⟨ls0, hls0, hres⟩
    · rw [hJ]
    · rw [hres, hls0, statusOf_append_nil]
  rw [commitScan_flag_false]
  intro p hp
  rw [is_lockedA_parse, hstatus]
  have hpval : validDomain p.1 := hdom p hp
  cases hlk : lookupA (Hosts.parse text).hosts p.1 with
  | some q0 =>
    obtain ⟨i0, h0⟩ := q0
    have hrev : revFindD (splitLines text) p.1 = some (i0, h0) := by
      have := hlk
      rw [revFindD_of_lookupA] at this
      cases hr : revFindD (splitLines text) p.1 with
      | none => rw [hr] at this; exact Option.noConfusion this
      | some p2 =>
        obtain ⟨i2, h2⟩ := p2
        rw [hr] at this
        simp only [Option.some_inj, Prod.mk.injEq] at this
        rw [this.1, this.2]
    obtain ⟨hi0, hp0, ht0⟩ := revFindD_some p.1 (splitLines text) i0 h0 hrev
    obtain ⟨len2, tail2, c3, c4⟩ := wfold_present (Hosts.parse text).hosts
      (splitLines text) st.domanin_is_locked hidx p.1 i0 h0 hlk
      (writeListM st (Hosts.parse text).hosts st.domain_map) (splitLines text)
      hWprop (le_refl _) ht0
    have hb : i0 < (wfold (Hosts.parse text).hosts (splitLines text)
        (writeListM st (Hosts.parse text).hosts st.domain_map)).length :=
      lt_of_lt_of_le hi0 len2
    by_cases hmem : p.1 ∈ (writeListM st (Hosts.parse text).hosts st.domain_map).map Prod.fst
    · have hcontent := c4 hmem hb
      have hpar : host (wfold (Hosts.parse text).hosts (splitLines text)
          (writeListM st (Hosts.parse text).hosts st.domain_map))[i0] =
          some (p.1, toHost (st.domanin_is_locked p.1)) := by
        rw [hcontent]
        exact host_host_line hpval _
      rw [statusOf_unique _ _ i0 _ hb hpar tail2]
      exact hostBool_toHost _
    · have hcontent := c3 hmem hi0 hb
      have hpar : host (wfold (Hosts.parse text).hosts (splitLines text)
          (writeListM st (Hosts.parse text).hosts st.domain_map))[i0] =
          some (p.1, h0) := by
        rw [hcontent]
        exact hp0
      rw [statusOf_unique _ _ i0 _ hb hpar tail2]
      have := writeListM_not_mem_key st (Hosts.parse text).hosts st.domain_map p hp hmem
      rw [← this, is_lockedA_some hlk]
  | none =>
    have hrev : revFindD (splitLines text) p.1 = none := by
      have := hlk
      rw [revFindD_of_lookupA] at this
      cases hr : revFindD (splitLines text) p.1 with
      | none => rfl
      | some p2 =>
        obtain ⟨i2, h2⟩ := p2
        rw [hr] at this
        exact Option.noConfusion this
    have hnoparse := revFindD_none p.1 (splitLines text) hrev
    by_cases hdes : st.domanin_is_locked p.1 = false
    · have hnm : p.1 ∉ (writeListM st (Hosts.parse text).hosts st.domain_map).map Prod.fst := by
        intro hm
        rcases List.mem_map.mp hm with ⟨q, hqW, hq1⟩
        obtain ⟨_, _, hne⟩ := writeListM_mem st (Hosts.parse text).hosts st.domain_map q hqW
        rw [hq1] at hne
        exact hne ((is_lockedA_none hlk).trans hdes.symm)
      have hres := wfold_absent_noParse (Hosts.parse text).hosts p.1
        (writeListM st (Hosts.parse text).hosts st.domain_map) (splitLines text)
        (fun q hq => (hWprop q hq).1) hnm hnoparse
      rw [statusOf_none_of_noParse _ _ hres, hdes]
      rfl
    · have hdes2 : st.domanin_is_locked p.1 = true := by
        cases hb : st.domanin_is_locked p.1
        · exact absurd hb hdes
        · rfl
      have hne : is_lockedA (Hosts.parse text).hosts p.1 ≠ st.domanin_is_locked p.1 := by
        rw [is_lockedA_none hlk, hdes2]
        simp
      have hmem : p.1 ∈ (writeListM st (Hosts.parse text).hosts st.domain_map).map Prod.fst :=
        List.mem_map.mpr ⟨(p.1, st.domanin_is_locked p.1),
          writeListM_mem_of st (Hosts.parse text).hosts st.domain_map p hp hne, rfl⟩
      obtain ⟨inv2, ex2⟩ := wfold_absent_inv (Hosts.parse text).hosts (splitLines text)
        st.domanin_is_locked hidx p.1 hlk
        (writeListM st (Hosts.parse text).hosts st.domain_map) (splitLines text)
        hWprop (le_refl _)
        (by
          intro j hj h2 hpar
          exact absurd hpar (hnoparse j hj h2))
      obtain ⟨j, hj, hLj, hcontent⟩ := ex2 (Or.inl hmem)
      rw [statusOf_of_allEq _ _ (st.domanin_is_locked p.1) hpval
        (fun j2 hj2 h2 hpar => (inv2 j2 hj2 h2 hpar).2) ⟨j, hj, hcontent⟩]
      exact hostBool_toHost _

/-! Lemmas about `commit`, `unlock` and `update`. -/

theorem and_if_eq_true {α : Type} (o : Option α) (p : α → Bool) :
    and_if o p = true ↔ ∃ a, o = some a ∧ p a = true := by
  cases o <;> simp [and_if]

theorem commit_writes (st : State) (env : Env) :
    (commit st env).1.writes ≤ env.writes + 1 := by
  unfold commit
  by_cases h1 : env.readOk = false
  · simp [h1]
  · simp only [if_neg h1]
    by_cases h2 : (commitScan st env.doc).2 = false
    · simp [h2]
    · simp only [if_neg h2]
      by_cases h3 : env.writeOk = false
      · simp [h3]
      · simp only [if_neg h3]
        by_cases h4 : env.saveOk = false <;> simp [h4]

theorem commit_allOk (st : State) (env : Env) (h : env.allOk) :
    (commit st env).2 = none := by
  obtain ⟨h1, h2, h3, h4⟩ := h
  unfold commit
  rw [h1, h2, h3]
  by_cases hc : (commitScan st env.doc).2 = false <;> simp [hc]

theorem commit_readFail (st : State) (env : Env) (h : env.readOk = false) :
    commit st env = (env, some CErr.ioError) := by
  unfold commit
  rw [h]
  simp

/-- After the in-memory transition of `unlock`, the entry reads as
unlocked, so a further `unlock` immediately returns success without
touching anything. -/
theorem unlock_of_unlocked (st : State) (name : Chars) (e : Entry)
    (cmd : Option Chars) (now : Int) (env : Env)
    (h : lookupA st.is_locked name = some false) :
    unlock st name e cmd now env = (st, env, none) := by
  unfold unlock
  rw [h]
  simp [and_if]

theorem updateStep_errs (cfg : Config) (now : Now) (st : State) (env : Env)
    (errs : List UErr) (p : Chars × Entry) :
    updateStep cfg now (st, env, errs) p =
      ((updateStep cfg now (st, env, []) p).1,
       (updateStep cfg now (st, env, []) p).2.1,
       errs ++ (updateStep cfg now (st, env, []) p).2.2) := by
  unfold updateStep
  cases hR : p.2.restriction with
  | Static u =>
    by_cases hc : (u.any fun d => d.contains now.tod) = true
    · simp only [hc, if_true]
      rcases hu : unlock st p.1 p.2 cfg.after_unlock now.ts env with ⟨st3, env3, err3⟩
      cases err3 <;> simp
    · simp only [hc, if_false, Bool.false_eq_true]
      rcases hu : lock st p.1 p.2 cfg.after_lock now.ts env with ⟨st3, env3, err3⟩
      cases err3 <;> simp
  | Dynamic per ct =>
    by_cases hc : or_if (lookupA st.last_unlocked p.1)
        (fun lu => decide (now.ts < lu + per)) = true
    · simp only [hc, if_true]
      rcases hu : unlock st p.1 p.2 cfg.after_unlock now.ts env with ⟨st3, env3, err3⟩
      cases err3 <;> simp
    · simp only [hc, if_false, Bool.false_eq_true]
      rcases hu : lock st p.1 p.2 cfg.after_lock now.ts env with ⟨st3, env3, err3⟩
      cases err3 <;> simp

theorem update_errs_shift (cfg : Config) (now : Now) :
    ∀ (l : List (Chars × Entry)) (st : State) (env : Env) (errs : List UErr),
      l.foldl (updateStep cfg now) (st, env, errs) =
        ((l.foldl (updateStep cfg now) (st, env, [])).1,
         (l.foldl (updateStep cfg now) (st, env, [])).2.1,
         errs ++ (l.foldl (updateStep cfg now) (st, env, [])).2.2) := by
  intro l
  induction l with
  | nil => intro st env errs; simp
  | cons p l2 ih =>
    intro st env errs
    rw [List.foldl_cons, List.foldl_cons]
    rw [updateStep_errs cfg now st env errs p]
    rcases hu : updateStep cfg now (st, env, []) p with ⟨st3, env3, err3⟩
    rw [ih st3 env3 (errs ++ err3), ih st3 env3 err3]
    simp

/-! The claim theorems. -/

/-- Claim C1 (code bug): `StaticDuration::contains` evaluated at the
spec's test points.  The wrapped window `(22:00, 06:00)` must exclude
`12:00`, but the source's wrapped branch is `end <= t || t < begin`,
which is true for every `t` whenever `begin >= end`; the third conjunct
shows `12:00` is reported as contained. -/
theorem contains_wrapped_window_noon :
    StaticDuration.contains ⟨⟨22, 0⟩, ⟨6, 0⟩⟩ ⟨23, 30⟩ = true ∧
    StaticDuration.contains ⟨⟨22, 0⟩, ⟨6, 0⟩⟩ ⟨2, 0⟩ = true ∧
    StaticDuration.contains ⟨⟨22, 0⟩, ⟨6, 0⟩⟩ ⟨12, 0⟩ = true ∧
    StaticDuration.contains ⟨⟨6, 0⟩, ⟨22, 0⟩⟩ ⟨12, 0⟩ = true ∧
    StaticDuration.contains ⟨⟨6, 0⟩, ⟨22, 0⟩⟩ ⟨23, 30⟩ = false := by
  decide

/-- Claim C2 (code bug): the unlock-request arm of `main_loop` indexes
`config.entries[&name]` directly; for a name that is not an entry the
`HashMap` index panics (modelled as `none`) and the event loop dies,
instead of answering `Fail{cause: "unknown entry"}`. -/
theorem main_loop_unknown_entry_panics :
    main_loop_unlock ⟨none, none, [("social".data, ⟨[], Restriction.Dynamic 60 30⟩)]⟩
      ⟨[], [], [], []⟩ ⟨[], true, true, true, true, 0⟩ "news".data 0 = none := by
  decide

/-- Claim C3 (code bug): `mh_duration` evaluated at the spec's test
tokens.  The hours branch computes `(d.fract() / 60).trunc()` extra
minutes — a division instead of the documented multiplication — so the
fractional term is always zero and `"1.5h"` yields 60 minutes, not the
claimed 90. -/
theorem mh_duration_fractional_hours :
    mh_duration "1.5h".data = some (60, []) ∧
    mh_duration "90m".data = some (90, []) ∧
    mh_duration "0.016h".data = some (0, []) := by
  refine ⟨?_, ?_, ?_⟩
  · have h1 : List.takeWhile Char.isDigit ['1', '.', '5', 'h'] = ['1'] := by decide
    have h2 : List.dropWhile Char.isDigit ['1', '.', '5', 'h'] = ['.', '5', 'h'] := by decide
    have h3 : List.takeWhile Char.isDigit ['5', 'h'] = ['5'] := by decide
    have h4 : List.dropWhile Char.isDigit ['5', 'h'] = ['h'] := by decide
    have h5 : digitsVal ['1'] = 1 := by decide
    have h6 : digitsVal ['5'] = 5 := by decide
    have hf : float "1.5h".data = some (3 / 2, ['h']) := by
      show float ['1', '.', '5', 'h'] = some (3 / 2, ['h'])
      rw [float]
      simp only [h1, h2, h3, h4, h5, h6]
      norm_num
    rw [mh_duration, hf]
    have h7 : trunc0 (3 / 2) = 1 := by
      rw [trunc0, if_pos (by norm_num)]
      norm_num
    simp only [h7]
    have h8 : trunc0 ((3 / 2 - ((1 : Int) : ℚ)) / 60) = 0 := by
      have he : ((3 / 2 - ((1 : Int) : ℚ)) / 60 : ℚ) = 1 / 120 := by push_cast; ring
      rw [trunc0, he, if_pos (by norm_num)]
      norm_num
    rw [h8]
    norm_num
  · have h1 : List.takeWhile Char.isDigit ['9', '0', 'm'] = ['9', '0'] := by decide
    have h2 : List.dropWhile Char.isDigit ['9', '0', 'm'] = ['m'] := by decide
    have h5 : digitsVal ['9', '0'] = 90 := by decide
    have hf : float "90m".data = some (90, ['m']) := by
      show float ['9', '0', 'm'] = some (90, ['m'])
      rw [float]
      simp only [h1, h2, h5]
      rw [if_neg (by decide)]
      show some (((90 : Nat) : ℚ), ['m']) = some (90, ['m'])
      norm_num
    rw [mh_duration, hf]
    have h7 : trunc0 90 = 90 := by
      rw [trunc0, if_pos (by norm_num)]
      norm_num
    simp only [h7]
  · have h1 : List.takeWhile Char.isDigit ['0', '.', '0', '1', '6', 'h'] = ['0'] := by decide
    have h2 : List.dropWhile Char.isDigit ['0', '.', '0', '1', '6', 'h'] =
        ['.', '0', '1', '6', 'h'] := by decide
    have h3 : List.takeWhile Char.isDigit ['0', '1', '6', 'h'] = ['0', '1', '6'] := by decide
    have h4 : List.dropWhile Char.isDigit ['0', '1', '6', 'h'] = ['h'] := by decide
    have h5 : digitsVal ['0'] = 0 := by decide
    have h6 : digitsVal ['0', '1', '6'] = 16 := by decide
    have hf : float "0.016h".data = some (2 / 125, ['h']) := by
      show float ['0', '.', '0', '1', '6', 'h'] = some (2 / 125, ['h'])
      rw [float]
      simp only [h1, h2, h3, h4, h5, h6]
      norm_num
    rw [mh_duration, hf]
    have h7 : trunc0 (2 / 125) = 0 := by
      rw [trunc0, if_pos (by norm_num)]
      norm_num
    simp only [h7]
    have h8 : trunc0 ((2 / 125 - ((0 : Int) : ℚ)) / 60) = 0 := by
      have he : ((2 / 125 - ((0 : Int) : ℚ)) / 60 : ℚ) = 1 / 3750 := by push_cast; ring
      rw [trunc0, he, if_pos (by norm_num)]
      norm_num
    rw [h8]
    norm_num

/-- Claim C4 (code bug): the `time` grammar rule's minute check is
`m > 60`, so `"12:60"` is accepted (yielding minute value 60) although
the claim — and the spec, which calls the inclusive bound a bug —
requires every token with minutes ≥ 60 to be rejected. -/
theorem time_accepts_sixty_minutes :
    time_all "12:60".data = some ⟨12, 60⟩ ∧
    time_all "12:59".data = some ⟨12, 59⟩ ∧
    time_all "12:61".data = none ∧
    time_all "24:00".data = none := by
  decide

/-- Claim C9, counterexample: rewriting the managed line
`"1.2.3.4 dom"` to the unlocked form discards the original address
`1.2.3.4` and uses the fixed loopback address instead, so the claimed
address preservation fails. -/
theorem write_state_address_counterexample :
    (Hosts.write_state (Hosts.parse "1.2.3.4 dom".data) "dom".data false).hosts_file =
      ["# 127.0.0.1 dom".data] ∧
    (Hosts.write_state (Hosts.parse "1.2.3.4 dom".data) "dom".data false).hosts_file ≠
      ["# 1.2.3.4 dom".data] := by
  decide

/-- Claim C9 (amended): a rewritten line always uses the fixed loopback
address `127.0.0.1` — the original address token is never preserved —
and the rewrite happens in place at the recorded line index, with a new
line appended when the domain has no recorded line. -/
theorem write_state_loopback (hs : Hosts) (d : Chars) (b : Bool) :
    host_line d b = (if b then "127.0.0.1 ".data else "# 127.0.0.1 ".data) ++ d ∧
    (∀ i h0, lookupA hs.hosts d = some (i, h0) →
      (hs.write_state d b).hosts_file = hs.hosts_file.set i (host_line d b)) ∧
    (lookupA hs.hosts d = none →
      (hs.write_state d b).hosts_file = hs.hosts_file ++ [host_line d b]) := by
  refine ⟨?_, ?_, ?_⟩
  · cases b <;> rfl
  · intro i h0 hlk
    simp [Hosts.write_state, hlk]
  · intro hlk
    simp [Hosts.write_state, hlk]

theorem write_state_loopback_witness :
    (Hosts.write_state (Hosts.parse "1.2.3.4 dom".data) "dom".data false).hosts_file =
      (Hosts.parse "1.2.3.4 dom".data).hosts_file.set 0 (host_line "dom".data false) :=
  (write_state_loopback (Hosts.parse "1.2.3.4 dom".data) "dom".data false).2.1 0
    Host.Locked (by decide)

/-- Claim C7 (amended): `commit` writes the document back only when the
diff pass changed at least one line, and re-running the scan against the
freshly exported document reports zero changes — provided every domain
of the DomainIndex is a well-formed token (nonempty, no space, tab,
`'#'` or line-break characters) and the original document contains no
carriage returns.  (Without these provisos the fixed point fails, see
the counterexample.) -/
theorem commit_fixed_point (st : State) (text : Chars) (env : Env)
    (hdom : ∀ p ∈ st.domain_map, validDomain p.1)
    (hcr : '\r' ∉ text) :
    (env.readOk = true → (commitScan st env.doc).2 = false → commit st env = (env, none)) ∧
    (commitScan st (commitScan st text).1.exportText).2 = false := by
  constructor
  · intro h1 h2
    unfold commit
    rw [h1, h2]
    simp
  · exact commitScan_rescan_false st text hdom hcr

/-- Claim C7, counterexample: with the ill-formed domain `"foo bar"`
(it contains a space, so the written line `"127.0.0.1 foo bar"` parses
back as domain `"foo"`), `commit` rewrites its own freshly written
output again: both the first and the second scan report changes. -/
theorem commit_fixed_point_counterexample :
    (commitPure ⟨[], [], [("e".data, true)], [("foo bar".data, "e".data)]⟩ []).2 = true ∧
    (commitPure ⟨[], [], [("e".data, true)], [("foo bar".data, "e".data)]⟩
      (commitPure ⟨[], [], [("e".data, true)], [("foo bar".data, "e".data)]⟩ []).1).2 =
      true := by
  decide

theorem commit_fixed_point_witness :
    (∀ p ∈ ([("dom".data, "e".data)] : List (Chars × Chars)), validDomain p.1) ∧
    (commitScan ⟨[], [], [("e".data, true)], [("dom".data, "e".data)]⟩
      (commitScan ⟨[], [], [("e".data, true)], [("dom".data, "e".data)]⟩
        []).1.exportText).2 = false :=
  ⟨by decide,
    (commit_fixed_point ⟨[], [], [("e".data, true)], [("dom".data, "e".data)]⟩ []
      ⟨[], true, true, true, true, 0⟩ (by decide) (by decide)).2⟩

theorem commit_spawnOk (st : State) (env : Env) :
    (commit st env).1.spawnOk = env.spawnOk := by
  unfold commit
  by_cases h1 : env.readOk = false
  · simp [h1]
  · simp only [if_neg h1]
    by_cases h2 : (commitScan st env.doc).2 = false
    · simp [h2]
    · simp only [if_neg h2]
      by_cases h3 : env.writeOk = false
      · simp [h3]
      · simp only [if_neg h3]
        by_cases h4 : env.saveOk = false <;> simp [h4]

theorem commit_result_spawnOk (st : State) (env env1 : Env) (r : Option CErr)
    (h : commit st env = (env1, r)) : env1.spawnOk = env.spawnOk := by
  have h2 := commit_spawnOk st env
  rw [h] at h2
  exact h2

theorem commit_result_writes (st : State) (env env1 : Env) (r : Option CErr)
    (h : commit st env = (env1, r)) : env1.writes ≤ env.writes + 1 := by
  have h2 := commit_writes st env
  rw [h] at h2
  exact h2

/-- When the cooldown branch does not fire, `unlock` never reports the
cooldown error. -/
theorem unlock_result_not_cooldown (st : State) (name : Chars) (e : Entry)
    (cmd : Option Chars) (now : Int) (env : Env)
    (h2 : ¬ ((match e.restriction with
           | Restriction.Dynamic _ ct =>
             and_if (lookupA st.last_unlocked name) (fun lu => decide (now < lu + ct))
           | Restriction.Static _ => false) = true)) :
    (unlock st name e cmd now env).2.2 ≠ some UErr.cooldown := by
  simp only [unlock]
  by_cases h1 : and_if (lookupA st.is_locked name) (fun l => !l) = true
  · rw [if_pos h1]; simp
  · rw [if_neg h1, if_neg h2]
    split
    · simp
    · split
      · split <;> simp
      · simp

/-- With all syscalls succeeding and no cooldown, `unlock` succeeds. -/
theorem unlock_allOk_none (st : State) (name : Chars) (e : Entry) (cmd : Option Chars)
    (now : Int) (env : Env) (hok : env.allOk)
    (h2 : ¬ ((match e.restriction with
           | Restriction.Dynamic _ ct =>
             and_if (lookupA st.last_unlocked name) (fun lu => decide (now < lu + ct))
           | Restriction.Static _ => false) = true)) :
    (unlock st name e cmd now env).2.2 = none := by
  simp only [unlock]
  by_cases h1 : and_if (lookupA st.is_locked name) (fun l => !l) = true
  · rw [if_pos h1]
  · rw [if_neg h1, if_neg h2]
    split
    · next env1 cerr heq =>
      exfalso
      have hnone := congrArg Prod.snd heq
      rw [commit_allOk _ env hok] at hnone
      exact Option.noConfusion hnone
    · next env1 heq =>
      cases cmd with
      | none => rfl
      | some c =>
        have hsp : env1.spawnOk = true :=
          (commit_result_spawnOk _ env env1 none heq).trans hok.2.2.2
        rw [if_pos hsp]

/-- The state and effect facts of an `unlock` call that passes both
guards: the entry is left reading as unlocked, at most one block-list
write happened, and the spawn flag is preserved. -/
theorem unlock_proceed (st : State) (name : Chars) (e : Entry) (cmd : Option Chars)
    (now : Int) (env : Env)
    (h1 : ¬ (and_if (lookupA st.is_locked name) (fun l => !l) = true))
    (h2 : ¬ ((match e.restriction with
           | Restriction.Dynamic _ ct =>
             and_if (lookupA st.last_unlocked name) (fun lu => decide (now < lu + ct))
           | Restriction.Static _ => false) = true)) :
    lookupA (unlock st name e cmd now env).1.is_locked name = some false ∧
    (unlock st name e cmd now env).2.1.writes ≤ env.writes + 1 := by
  simp only [unlock]
  rw [if_neg h1, if_neg h2]
  cases hR : e.restriction with
  | Static u =>
    simp only [hR]
    split
    · next env1 cerr heq =>
      exact ⟨by rw [lookupA_setA, if_pos rfl], commit_result_writes _ env env1 _ heq⟩
    · next env1 heq =>
      cases cmd with
      | none => exact ⟨by rw [lookupA_setA, if_pos rfl], commit_result_writes _ env env1 _ heq⟩
      | some c =>
        by_cases hsp : env1.spawnOk = true
        · rw [if_pos hsp]
          exact ⟨by rw [lookupA_setA, if_pos rfl], commit_result_writes _ env env1 _ heq⟩
        · rw [if_neg hsp]
          exact ⟨by rw [lookupA_setA, if_pos rfl], commit_result_writes _ env env1 _ heq⟩
  | Dynamic per ct =>
    simp only [hR]
    split
    · next env1 cerr heq =>
      exact ⟨by rw [lookupA_setA, if_pos rfl], commit_result_writes _ env env1 _ heq⟩
    · next env1 heq =>
      cases cmd with
      | none => exact ⟨by rw [lookupA_setA, if_pos rfl], commit_result_writes _ env env1 _ heq⟩
      | some c =>
        by_cases hsp : env1.spawnOk = true
        · rw [if_pos hsp]
          exact ⟨by rw [lookupA_setA, if_pos rfl], commit_result_writes _ env env1 _ heq⟩
        · rw [if_neg hsp]
          exact ⟨by rw [lookupA_setA, if_pos rfl], commit_result_writes _ env env1 _ heq⟩

/-- Claim C5: for a currently locked `DynamicUsage` entry, `unlock`
fails with the cooldown error exactly when a `last_unlocked` timestamp
exists with `now < last_unlocked + cool_time`; on that failure nothing
changes, and when the condition does not hold (and all syscalls
succeed) the call returns success. -/
theorem unlock_cooldown_rejection (st : State) (name : Chars) (ds : List Chars)
    (per ct : Int) (cmd : Option Chars) (now : Int) (env : Env)
    (hlocked : lookupA st.is_locked name = some true) :
    ((unlock st name ⟨ds, Restriction.Dynamic per ct⟩ cmd now env).2.2 =
        some UErr.cooldown ↔
      ∃ lu, lookupA st.last_unlocked name = some lu ∧ now < lu + ct) ∧
    ((unlock st name ⟨ds, Restriction.Dynamic per ct⟩ cmd now env).2.2 =
        some UErr.cooldown →
      (unlock st name ⟨ds, Restriction.Dynamic per ct⟩ cmd now env).1 = st ∧
      (unlock st name ⟨ds, Restriction.Dynamic per ct⟩ cmd now env).2.1 = env) ∧
    (env.allOk → ¬ (∃ lu, lookupA st.last_unlocked name = some lu ∧ now < lu + ct) →
      (unlock st name ⟨ds, Restriction.Dynamic per ct⟩ cmd now env).2.2 = none) := by
  have h1 : ¬ (and_if (lookupA st.is_locked name) (fun l => !l) = true) := by
    simp [and_if, hlocked]
  by_cases h2 : and_if (lookupA st.last_unlocked name)
      (fun lu => decide (now < lu + ct)) = true
  · have he : unlock st name ⟨ds, Restriction.Dynamic per ct⟩ cmd now env =
        (st, env, some UErr.cooldown) := by
      simp only [unlock]
      rw [if_neg h1, if_pos h2]
    rcases (and_if_eq_true _ _).mp h2 with ⟨lu, hlu, hdec⟩
    have hex : ∃ lu, lookupA st.last_unlocked name = some lu ∧ now < lu + ct :=
      ⟨lu, hlu, of_decide_eq_true hdec⟩
    refine ⟨?_, ?_, ?_⟩
    · rw [he]; simp [hex]
    · intro _; rw [he]; exact ⟨rfl, rfl⟩
    · intro _ hno; exact absurd hex hno
  · have hnotc := unlock_result_not_cooldown st name ⟨ds, Restriction.Dynamic per ct⟩
      cmd now env h2
    have hno : ¬ ∃ lu, lookupA st.last_unlocked name = some lu ∧ now < lu + ct := by
      rintro ⟨lu, hlu, hlt⟩
      exact h2 ((and_if_eq_true _ _).mpr ⟨lu, hlu, decide_eq_true hlt⟩)
    refine ⟨⟨fun hcool => absurd hcool hnotc, fun hex => absurd hex hno⟩,
      fun hcool => absurd hcool hnotc, ?_⟩
    intro hok _
    exact unlock_allOk_none st name ⟨ds, Restriction.Dynamic per ct⟩ cmd now env hok h2

theorem unlock_cooldown_rejection_witness :
    (unlock ⟨[("g".data, 90)], [], [("g".data, true)], []⟩ "g".data
        ⟨[], Restriction.Dynamic 60 30⟩ none 100 ⟨[], true, true, true, true, 0⟩).2.2 =
      some UErr.cooldown ∧
    (unlock ⟨[("g".data, 60)], [], [("g".data, true)], []⟩ "g".data
        ⟨[], Restriction.Dynamic 60 30⟩ none 100 ⟨[], true, true, true, true, 0⟩).2.2 =
      none := by
  constructor
  · exact (unlock_cooldown_rejection ⟨[("g".data, 90)], [], [("g".data, true)], []⟩
      "g".data [] 60 30 none 100 ⟨[], true, true, true, true, 0⟩ (by decide)).1.mpr
      ⟨90, by decide, by decide⟩
  · refine (unlock_cooldown_rejection ⟨[("g".data, 60)], [], [("g".data, true)], []⟩
      "g".data [] 60 30 none 100 ⟨[], true, true, true, true, 0⟩ (by decide)).2.2
      (by decide) ?_
    rintro ⟨lu, hlu, hlt⟩
    simp +decide [lookupA] at hlu
    omega

/-- Claim C10: when `commit` fails inside `unlock` (here: the hosts
read fails), `unlock` returns the error but the in-memory transition
has already happened — the entry reads as unlocked with `last_unlocked`
set to `now` — and an immediately following `unlock` is a success
no-op that does not retry the write. -/
theorem unlock_commit_error_state (st : State) (name : Chars) (ds : List Chars)
    (per ct : Int) (cmd : Option Chars) (now : Int) (env : Env)
    (hnotun : and_if (lookupA st.is_locked name) (fun l => !l) = false)
    (hcd : and_if (lookupA st.last_unlocked name)
      (fun lu => decide (now < lu + ct)) = false)
    (hread : env.readOk = false) :
    (unlock st name ⟨ds, Restriction.Dynamic per ct⟩ cmd now env).2.2 =
      some UErr.ioError ∧
    (unlock st name ⟨ds, Restriction.Dynamic per ct⟩ cmd now env).2.1 = env ∧
    lookupA (unlock st name ⟨ds, Restriction.Dynamic per ct⟩ cmd now env).1.is_locked
      name = some false ∧
    lookupA (unlock st name ⟨ds, Restriction.Dynamic per ct⟩ cmd now env).1.last_unlocked
      name = some now ∧
    unlock (unlock st name ⟨ds, Restriction.Dynamic per ct⟩ cmd now env).1 name
      ⟨ds, Restriction.Dynamic per ct⟩ cmd now env =
      ((unlock st name ⟨ds, Restriction.Dynamic per ct⟩ cmd now env).1, env, none) := by
  have he : unlock st name ⟨ds, Restriction.Dynamic per ct⟩ cmd now env =
      ({ st with is_locked := setA st.is_locked name false,
                 last_unlocked := setA st.last_unlocked name now }, env,
        some UErr.ioError) := by
    simp only [unlock]
    rw [if_neg (by rw [hnotun]; simp), if_neg (by rw [hcd]; simp),
      commit_readFail _ env hread]
  refine ⟨by rw [he], by rw [he], ?_, ?_, ?_⟩
  · rw [he]
    show lookupA (setA st.is_locked name false) name = some false
    rw [lookupA_setA, if_pos rfl]
  · rw [he]
    show lookupA (setA st.last_unlocked name now) name = some now
    rw [lookupA_setA, if_pos rfl]
  · apply unlock_of_unlocked
    rw [he]
    show lookupA (setA st.is_locked name false) name = some false
    rw [lookupA_setA, if_pos rfl]

theorem unlock_commit_error_state_witness :
    (unlock ⟨[], [], [("g".data, true)], []⟩ "g".data ⟨[], Restriction.Dynamic 60 30⟩
        none 100 ⟨[], false, true, true, true, 0⟩).2.2 = some UErr.ioError ∧
    lookupA (unlock ⟨[], [], [("g".data, true)], []⟩ "g".data
        ⟨[], Restriction.Dynamic 60 30⟩ none 100
        ⟨[], false, true, true, true, 0⟩).1.is_locked "g".data = some false := by
  have h := unlock_commit_error_state ⟨[], [], [("g".data, true)], []⟩ "g".data []
    60 30 none 100 ⟨[], false, true, true, true, 0⟩ (by decide) (by decide) (by decide)
  exact ⟨h.1, h.2.2.1⟩

/-- Claim C8: calling `unlock` twice in a row with no intervening
`lock` leaves exactly the state and environment of the single call (the
second call is a no-op), performs at most one block-list write in
total, and when the first call succeeded the second also returns
success. -/
theorem unlock_idempotent (st : State) (name : Chars) (e : Entry) (cmd : Option Chars)
    (now : Int) (env : Env) :
    (unlock (unlock st name e cmd now env).1 name e cmd now
      (unlock st name e cmd now env).2.1).1 = (unlock st name e cmd now env).1 ∧
    (unlock (unlock st name e cmd now env).1 name e cmd now
      (unlock st name e cmd now env).2.1).2.1 = (unlock st name e cmd now env).2.1 ∧
    (unlock (unlock st name e cmd now env).1 name e cmd now
      (unlock st name e cmd now env).2.1).2.1.writes ≤ env.writes + 1 ∧
    ((unlock st name e cmd now env).2.2 ≠ some UErr.cooldown →
      (unlock (unlock st name e cmd now env).1 name e cmd now
        (unlock st name e cmd now env).2.1).2.2 = none) := by
  by_cases h1 : and_if (lookupA st.is_locked name) (fun l => !l) = true
  · have he : unlock st name e cmd now env = (st, env, none) := by
      simp only [unlock]
      rw [if_pos h1]
    refine ⟨by simp [he], by simp [he], ?_, fun _ => by simp [he]⟩
    simp only [he]
    simp [he]
  · by_cases h2 : (match e.restriction with
        | Restriction.Dynamic _ ct =>
          and_if (lookupA st.last_unlocked name) (fun lu => decide (now < lu + ct))
        | Restriction.Static _ => false) = true
    · have he : unlock st name e cmd now env = (st, env, some UErr.cooldown) := by
        simp only [unlock]
        rw [if_neg h1, if_pos h2]
      refine ⟨by simp [he], by simp [he], ?_, ?_⟩
      · simp only [he]
        simp [he]
      · intro hnc
        rw [he] at hnc
        simp at hnc
    · obtain ⟨hlk, hwr⟩ := unlock_proceed st name e cmd now env h1 h2
      have hsec := unlock_of_unlocked (unlock st name e cmd now env).1 name e cmd now
        (unlock st name e cmd now env).2.1 hlk
      exact ⟨by rw [hsec], by rw [hsec], by rw [hsec]; exact hwr, fun _ => by rw [hsec]⟩

theorem unlock_idempotent_witness :
    ((unlock ⟨[], [], [("g".data, true)], []⟩ "g".data ⟨[], Restriction.Static []⟩
        none 0 ⟨[], true, true, true, true, 0⟩).2.2 = none) ∧
    (unlock (unlock ⟨[], [], [("g".data, true)], []⟩ "g".data ⟨[], Restriction.Static []⟩
        none 0 ⟨[], true, true, true, true, 0⟩).1 "g".data ⟨[], Restriction.Static []⟩
        none 0 (unlock ⟨[], [], [("g".data, true)], []⟩ "g".data
          ⟨[], Restriction.Static []⟩ none 0 ⟨[], true, true, true, true, 0⟩).2.1).2.2 =
      none := by
  refine ⟨by decide, ?_⟩
  exact (unlock_idempotent ⟨[], [], [("g".data, true)], []⟩ "g".data
    ⟨[], Restriction.Static []⟩ none 0 ⟨[], true, true, true, true, 0⟩).2.2.2 (by decide)

/-- Claim C6: `update` never stops early — over any split of the entry
list it behaves as the sequential composition with concatenated error
lists — and in the spec's two-entry scenario (one cooldown-blocked, one
eligible) the eligible entry transitions to unlocked while exactly one
cooldown failure is reported. -/
theorem update_attempts_all_entries :
    (∀ (al au : Option Chars) (l1 l2 : List (Chars × Entry)) (st : State) (env : Env)
      (now : Now),
      update st env ⟨al, au, l1 ++ l2⟩ now =
        ((update (update st env ⟨al, au, l1⟩ now).1 (update st env ⟨al, au, l1⟩ now).2.1
            ⟨al, au, l2⟩ now).1,
         (update (update st env ⟨al, au, l1⟩ now).1 (update st env ⟨al, au, l1⟩ now).2.1
            ⟨al, au, l2⟩ now).2.1,
         (update st env ⟨al, au, l1⟩ now).2.2 ++
           (update (update st env ⟨al, au, l1⟩ now).1
              (update st env ⟨al, au, l1⟩ now).2.1 ⟨al, au, l2⟩ now).2.2)) ∧
    (update ⟨[("a".data, 90)], [], [("a".data, true), ("b".data, true)], []⟩
        ⟨[], true, true, true, true, 0⟩
        ⟨none, none, [("a".data, ⟨[], Restriction.Dynamic 60 30⟩),
          ("b".data, ⟨[], Restriction.Dynamic 60 30⟩)]⟩ ⟨100, ⟨0, 0⟩⟩).2.2 =
      [UErr.cooldown] ∧
    lookupA (update ⟨[("a".data, 90)], [], [("a".data, true), ("b".data, true)], []⟩
        ⟨[], true, true, true, true, 0⟩
        ⟨none, none, [("a".data, ⟨[], Restriction.Dynamic 60 30⟩),
          ("b".data, ⟨[], Restriction.Dynamic 60 30⟩)]⟩ ⟨100, ⟨0, 0⟩⟩).1.is_locked
      "b".data = some false ∧
    lookupA (update ⟨[("a".data, 90)], [], [("a".data, true), ("b".data, true)], []⟩
        ⟨[], true, true, true, true, 0⟩
        ⟨none, none, [("a".data, ⟨[], Restriction.Dynamic 60 30⟩),
          ("b".data, ⟨[], Restriction.Dynamic 60 30⟩)]⟩ ⟨100, ⟨0, 0⟩⟩).1.is_locked
      "a".data = some true := by
  refine ⟨?_, by decide, by decide, by decide⟩
  intro al au l1 l2 st env now
  show (l1 ++ l2).foldl (updateStep ⟨al, au, l1 ++ l2⟩ now) (st, env, []) = _
  rw [List.foldl_append]
  have hf1 : List.foldl (updateStep ⟨al, au, l1 ++ l2⟩ now)
      ((st, env, []) : State × Env × List UErr) l1 =
      List.foldl (updateStep ⟨al, au, l1⟩ now) (st, env, []) l1 := rfl
  rw [hf1]
  rcases hr1 : List.foldl (updateStep ⟨al, au, l1⟩ now)
      ((st, env, []) : State × Env × List UErr) l1 with ⟨st1, env1, errs1⟩
  have hf2 : List.foldl (updateStep ⟨al, au, l1 ++ l2⟩ now)
      ((st1, env1, errs1) : State × Env × List UErr) l2 =
      List.foldl (updateStep ⟨al, au, l2⟩ now) (st1, env1, errs1) l2 := rfl
  rw [hf2, update_errs_shift]
  have hu1 : update st env ⟨al, au, l1⟩ now = (st1, env1, errs1) := hr1
  rw [hu1]
  rfl

end Senklot
